import Mathlib

/-!
Verification of the ARRL question-pool parser.

This file gives a shallow embedding, over lists of characters, of the
text-normalization pipeline, the question-extraction regular expression,
the question record with its rendering and shuffling behaviour, the
duplicate-id policy, the id filtering, the interactive quiz loop and the
session driver of `parse_arrl_pool.py`, and proves or refutes the frozen
specification claims about them.

Strings are modelled as `List Char`.  Functions that recurse on a
non-structural measure take an explicit fuel argument (always called with
fuel larger than the input length) so that every definition computes by
`rfl` and `decide`.
-/

set_option maxRecDepth 10000

namespace ParseArrlPool

/-- Strings are modelled as lists of characters. -/
abbrev Str := List Char

/-- Python regex `\s` and `str.split` whitespace, restricted to the ASCII
whitespace characters. -/
def isSpaceChar (c : Char) : Bool :=
  c = ' ' || c = '\t' || c = '\n' || c = '\r' || c = '\x0b' || c = '\x0c'

/-- Boolean test that the pattern occurs at the start of the text. -/
def startsWithL : Str → Str → Bool
  | [], _ => true
  | _ :: _, [] => false
  | c :: p, d :: s => c = d && startsWithL p s

/-- Boolean test that the pattern occurs contiguously somewhere in the text. -/
def occursIn (p : Str) : Str → Bool := fun s =>
  startsWithL p s ||
    match s with
    | [] => false
    | _ :: r => occursIn p r

/-- Test for the regex `FIRST_QUESTION_RE = [TGE]1A01 ` at the head of the
text: one of the three class letters, then the literal `1A01` and a space. -/
def isMarkerStart : Str → Bool
  | c0 :: c1 :: c2 :: c3 :: c4 :: c5 :: _ =>
    (c0 = 'T' || c0 = 'G' || c0 = 'E')
      && c1 = '1' && c2 = 'A' && c3 = '0' && c4 = '1' && c5 = ' '
  | _ => false

/-- The `FIRST_QUESTION_RE` pattern matches at position `i` of the text. -/
def markerAt (t : Str) (i : Nat) : Bool := isMarkerStart (t.drop i)

/-- Index of the first `FIRST_QUESTION_RE` match in the text, mirroring
`re.search`. -/
def findMarkerIdx : Str → Option Nat
  | [] => none
  | s@(_ :: r) =>
    if isMarkerStart s then some 0
    else (findMarkerIdx r).map (· + 1)

/-- The search loop of `cleanup_text`: repeatedly search for the next
`FIRST_QUESTION_RE` match strictly after the current index, ending at the
last match position (or 0 when the only match starts the text).  The fuel
argument dominates the number of iterations. -/
def skipIndexFromF : Nat → Str → Nat → Nat
  | 0, _, si => si
  | fuel + 1, t, si =>
    match findMarkerIdx (t.drop (si + 1)) with
    | none => si
    | some k => skipIndexFromF fuel t (si + k + 1)

/-- Start index kept by the header-skipping loop of `cleanup_text`. -/
def skipIndex (t : Str) : Nat := skipIndexFromF (t.length + 1) t 0

/-- Modelled from the spec: the `unidecode` library (not part of this
repository) transliterates Unicode to ASCII, deterministically and totally;
smart quotes, en and em dashes and accented letters map to ASCII
approximations.  The model is the identity on ASCII, uses a small table of
single-character approximations for common typographic characters, and maps
every other non-ASCII code point to a question mark. -/
def uniChar (c : Char) : Char :=
  if c.val < 128 then c
  else if c = '‘' || c = '’' then '\''
  else if c = '“' || c = '”' then '"'
  else if c = '–' || c = '—' then '-'
  else if c = 'é' then 'e'
  else if c = 'á' then 'a'
  else if c = 'ü' then 'u'
  else '?'

/-- Modelled from the spec: Unicode-to-ASCII transliteration of a whole
text, applied characterwise. -/
def uni (s : Str) : Str := s.map uniChar

/-- Python regex character class `[0-9a-z]` under `re.IGNORECASE`. -/
def isAlnumI (c : Char) : Bool :=
  ('0' ≤ c && c ≤ '9') || ('a' ≤ c && c ≤ 'z') || ('A' ≤ c && c ≤ 'Z')

/-- Python regex character class `[a-z]` under `re.IGNORECASE`. -/
def isLetterI (c : Char) : Bool :=
  ('a' ≤ c && c ≤ 'z') || ('A' ≤ c && c ≤ 'Z')

/-- One left-to-right, non-overlapping pass of
`EXTRA_SPACE_RE.sub(r'\1\2', text)` with
`EXTRA_SPACE_RE = ([0-9a-z]-)\s+([a-z])` and `re.IGNORECASE`: an
alphanumeric, a hyphen, a greedy nonempty whitespace run and a letter are
rewritten with the whitespace removed, scanning resuming after the letter.
The fuel argument dominates the number of scan steps. -/
def extraSubF : Nat → Str → Str
  | 0, s => s
  | _ + 1, [] => []
  | fuel + 1, c :: rest =>
    if isAlnumI c then
      match rest with
      | d :: rest2 =>
        if d = '-' then
          let ws := rest2.takeWhile isSpaceChar
          let r3 := rest2.dropWhile isSpaceChar
          if ws.isEmpty then c :: extraSubF fuel rest
          else
            match r3 with
            | l :: r4 =>
              if isLetterI l then c :: '-' :: l :: extraSubF fuel r4
              else c :: extraSubF fuel rest
            | [] => c :: extraSubF fuel rest
        else c :: extraSubF fuel rest
      | [] => c :: extraSubF fuel rest
    else c :: extraSubF fuel rest

/-- The hyphenation repair substitution of `cleanup_text`. -/
def extraSub (s : Str) : Str := extraSubF (s.length + 1) s

/-- The function `cleanup_text`: skip the leading header by moving to the
index computed by the search loop, transliterate to ASCII, then repair
hyphenation breaks. -/
def cleanup_text (t : Str) : Str := extraSub (uni (t.drop (skipIndex t)))

/-!
The question-extraction regular expression `QA_RE` is embedded as a
backtracking matcher specialized to its fixed shape

  (?P<QuestionNumber>[TGE][0-9][A-Z][0-9]..) ?\((?P<Answer>[A-D])\)
  (?P<Regulation>\s*?\[[^]]+?\])?\s*?(?P<Question>[^~]+?)\s*?
  A\. *?(?P<ChoiceA>[^~]+?)\s*?B\. *?(?P<ChoiceB>[^~]+?)\s*?
  C\. *?(?P<ChoiceC>[^~]+?)\s*?D\. *?(?P<ChoiceD>[^~]+?)\s*?~+

with Python semantics: lazy quantifiers try the shortest alternative first,
a failing continuation backtracks into earlier choice points, and captures
include whatever their group consumed (so the Regulation capture keeps its
leading whitespace).  Each stage below is one slice of the pattern,
continuation-composed right to left; exploration order follows the engine:
for a lazy piece the current position is tried before consuming one more
character.
-/

/-- Terminator slice `\s*?~+`: lazily skip whitespace, then greedily consume
a nonempty tilde run, returning the rest of the text. -/
def tildeEnd : Str → Option Str
  | [] => none
  | c :: r =>
    if c = '~' then some (r.dropWhile (· = '~'))
    else if isSpaceChar c then tildeEnd r
    else none

/-- Body of the `ChoiceD` slice: having captured `acc` (reversed, nonempty),
try the terminator here, otherwise extend the lazy `[^~]+?` capture. -/
def chDGo (acc : Str) : Str → Option (Str × Str)
  | [] => none
  | c :: r =>
    match tildeEnd (c :: r) with
    | some rest => some (acc.reverse, rest)
    | none => if c = '~' then none else chDGo (c :: acc) r

/-- Slice `(?P<ChoiceD>[^~]+?)\s*?~+`. -/
def choiceDSeg : Str → Option (Str × Str)
  | [] => none
  | c :: r => if c = '~' then none else chDGo [c] r

/-- Slice ` *?` after a choice-letter literal: lazily consume spaces, trying
the continuation before each extra space. -/
def lazySpacesThen {α : Type} (next : Str → Option α) : Str → Option α
  | [] => next []
  | c :: r =>
    match next (c :: r) with
    | some a => some a
    | none => if c = ' ' then lazySpacesThen next r else none

/-- Slice `\s*?{m1}{m2} *?` followed by the continuation: lazily skip
whitespace; at each position, if the two-character marker is present, run
` *?` and the continuation, and on their total failure keep extending the
whitespace run as the engine does. -/
def wsMarkerThen {α : Type} (m1 m2 : Char) (next : Str → Option α) : Str → Option α
  | a :: b :: r =>
    match (if a = m1 && b = m2 then lazySpacesThen next r else none) with
    | some v => some v
    | none => if isSpaceChar a then wsMarkerThen m1 m2 next (b :: r) else none
  | _ => none

/-- Body of a free-text slice: having captured `acc` (reversed, nonempty),
try the whitespace-marker-continuation here, otherwise extend the lazy
`[^~]+?` capture by one non-tilde character. -/
def segGo {α : Type} (m1 m2 : Char) (next : Str → Option α) (acc : Str) : Str → Option (Str × α)
  | [] => none
  | c :: r =>
    match wsMarkerThen m1 m2 next (c :: r) with
    | some v => some (acc.reverse, v)
    | none => if c = '~' then none else segGo m1 m2 next (c :: acc) r

/-- Slice `(?P<X>[^~]+?)\s*?{m1}{m2} *?` followed by the continuation. -/
def segment {α : Type} (m1 m2 : Char) (next : Str → Option α) : Str → Option (Str × α)
  | [] => none
  | c :: r => if c = '~' then none else segGo m1 m2 next [c] r

/-- Slice `\s*?` before the `Question` group: lazily skip any whitespace,
trying the continuation first. -/
def lazyWsThen {α : Type} (next : Str → Option α) : Str → Option α
  | [] => next []
  | c :: r =>
    match next (c :: r) with
    | some a => some a
    | none => if isSpaceChar c then lazyWsThen next r else none

/-- Capture tuple of the five free-text groups plus the rest of the text
after the tilde terminator. -/
abbrev QTup := Str × (Str × (Str × (Str × (Str × Str))))

/-- Slices for the four choices and the question, chained right to left. -/
def stageC : Str → Option (Str × (Str × Str)) := segment 'D' '.' choiceDSeg

/-- Slice chain starting at the `ChoiceB` capture. -/
def stageB : Str → Option (Str × (Str × (Str × Str))) := segment 'C' '.' stageC

/-- Slice chain starting at the `ChoiceA` capture. -/
def stageA : Str → Option (Str × (Str × (Str × (Str × Str)))) := segment 'B' '.' stageB

/-- Slice chain starting at the `Question` capture, including its leading
lazy `\s*?`. -/
def stageQ : Str → Option QTup := lazyWsThen (segment 'A' '.' stageA)

/-- Group `(?P<Regulation>\s*?\[[^]]+?\])` tried once: lazily skip
whitespace into the capture, require an opening bracket, then take the
lazy nonempty bracket content up to the first closing bracket.  Returns the
full capture (leading whitespace included) and the rest. -/
def regTryGo (accWs : Str) : Str → Option (Str × Str)
  | [] => none
  | c :: r =>
    if c = '[' then
      let content := r.takeWhile (· ≠ ']')
      let r2 := r.dropWhile (· ≠ ']')
      if content.isEmpty then none
      else
        match r2 with
        | b :: after => if b = ']' then some (accWs.reverse ++ '[' :: content ++ [']'], after) else none
        | [] => none
    else if isSpaceChar c then regTryGo (c :: accWs) r
    else none

/-- Attempt of the optional Regulation group at the current position. -/
def regTry : Str → Option (Str × Str) := regTryGo []

/-- The optional Regulation group followed by the question-and-choices
chain: the group, being greedy, is tried first; if the continuation fails
the engine falls back to matching the group as absent. -/
def regGroupThen (s : Str) : Option (Option Str × QTup) :=
  match regTry s with
  | some (cap, rest) =>
    match stageQ rest with
    | some v => some (some cap, v)
    | none => (stageQ s).map (fun v => (none, v))
  | none => (stageQ s).map (fun v => (none, v))

/-- Leading `[TGE][0-9][A-Z][0-9]{2}` of `QA_RE`: five characters of the
question number. -/
def idChars : Str → Option (Str × Str)
  | c1 :: c2 :: c3 :: c4 :: c5 :: r =>
    if (c1 = 'T' || c1 = 'G' || c1 = 'E') && c2.isDigit
        && ('A' ≤ c3 && c3 ≤ 'Z') && c4.isDigit && c5.isDigit then
      some ([c1, c2, c3, c4, c5], r)
    else none
  | _ => none

/-- One full match attempt of `QA_RE` anchored at the start of the text. -/
structure RawMatch where
  qnum : Str
  ans : Char
  reg : Option Str
  ques : Str
  chA : Str
  chB : Str
  chC : Str
  chD : Str
  rest : Str
deriving Repr, DecidableEq, Inhabited

/-- Match `QA_RE` at the start of the text.  The greedy ` ?` after the id is
deterministic because the following literal is an opening parenthesis,
which is not a space. -/
def qaMatchAt (s : Str) : Option RawMatch :=
  match idChars s with
  | none => none
  | some (qn, r1) =>
    let r2 := match r1 with
      | c :: r => if c = ' ' then r else c :: r
      | [] => []
    match r2 with
    | c1 :: a :: c2 :: r3 =>
      if c1 = '(' && c2 = ')' && (a = 'A' || a = 'B' || a = 'C' || a = 'D') then
        (regGroupThen r3).map fun v =>
          ⟨qn, a, v.1, v.2.1, v.2.2.1, v.2.2.2.1, v.2.2.2.2.1, v.2.2.2.2.2.1, v.2.2.2.2.2.2⟩
      else none
    | _ => none

/-- The scan of `QA_RE.finditer`: leftmost matches, non-overlapping,
resuming after each match end.  The fuel argument dominates the number of
scan steps. -/
def findMatchesF : Nat → Str → List RawMatch
  | 0, _ => []
  | fuel + 1, s =>
    match qaMatchAt s with
    | some m => m :: findMatchesF fuel m.rest
    | none =>
      match s with
      | [] => []
      | _ :: r => findMatchesF fuel r

/-- All matches of `QA_RE` in the text, in document order. -/
def findMatches (s : Str) : List RawMatch := findMatchesF (s.length + 1) s

/-!
The `Question` record: whitespace collapsing of the captured fields,
construction from a raw match (with the constructor assertions), the
canonical rendering of `Question.__str__`, and equality by rendering as in
`Question.__eq__`.
-/

/-- Helper for `str.split`: splits on whitespace runs, accumulating the
current word reversed. -/
def wordsAux : Str → Str → List Str
  | [], cur => if cur.isEmpty then [] else [cur.reverse]
  | c :: r, cur =>
    if isSpaceChar c then
      if cur.isEmpty then wordsAux r [] else cur.reverse :: wordsAux r []
    else wordsAux r (c :: cur)

/-- Python `str.split()` with no argument: the whitespace-separated words. -/
def splitWs (s : Str) : List Str := wordsAux s []

/-- Python `' '.join`. -/
def joinSp : List Str → Str
  | [] => []
  | [w] => w
  | w :: ws => w ++ ' ' :: joinSp ws

/-- The field normalization `' '.join(field.split())` used by
`Question.__init__`. -/
def collapse (s : Str) : Str := joinSp (splitWs s)

/-- The data of one parsed question, as stored by `Question.__init__`. -/
structure Question where
  question_number : Str
  answer : Char
  regulation : Str
  question : Str
  choiceA : Str
  choiceB : Str
  choiceC : Str
  choiceD : Str
deriving Repr, DecidableEq, Inhabited

/-- The `choices` dictionary of a question, keyed by the original letter. -/
def Question.choice (q : Question) : Char → Str
  | 'A' => q.choiceA
  | 'B' => q.choiceB
  | 'C' => q.choiceC
  | 'D' => q.choiceD
  | _ => []

/-- The canonical rendering `Question.__str__`. -/
def renderPlain (q : Question) : Str :=
  q.question_number ++ ' ' :: '(' :: q.answer :: ')' ::
    (q.regulation ++ '\n' ::
      (q.question ++ '\n' :: 'A' :: '.' :: ' ' ::
        (q.choiceA ++ '\n' :: 'B' :: '.' :: ' ' ::
          (q.choiceB ++ '\n' :: 'C' :: '.' :: ' ' ::
            (q.choiceC ++ '\n' :: 'D' :: '.' :: ' ' ::
              (q.choiceD ++ ['\n', '~', '~']))))))

/-- Construction of a `Question` from a raw match, mirroring
`Question.__init__`: fields are whitespace-collapsed, a missing or
whitespace-only Regulation capture is stored as the empty string, and the
assertions that the question and every choice are nonempty after collapsing
turn into `none` (an `AssertionError` in the source). -/
def mkQuestion (m : RawMatch) : Option Question :=
  let reg := match m.reg with
    | none => []
    | some r => if r.all isSpaceChar then [] else r
  let ques := collapse m.ques
  let cA := collapse m.chA
  let cB := collapse m.chB
  let cC := collapse m.chC
  let cD := collapse m.chD
  if m.qnum.isEmpty || ques.isEmpty || cA.isEmpty || cB.isEmpty
      || cC.isEmpty || cD.isEmpty then none
  else some ⟨m.qnum, m.ans, reg, ques, cA, cB, cC, cD⟩

/-!
Extraction: the ordered id-to-question map of `parse_questions`, with
include and exclude filtering and the duplicate-id policy.  The insertion-
ordered Python dict is modelled as an association list where assigning an
existing key replaces the value in place, keeping the key position.
-/

/-- Ordered mapping from question numbers to questions. -/
abbrev QMap := List (Str × Question)

/-- Dict lookup. -/
def qmapLookup (k : Str) : QMap → Option Question
  | [] => none
  | (k1, v) :: r => if k1 = k then some v else qmapLookup k r

/-- Dict assignment: updates an existing key in place (keeping its
position, as a Python dict does) or appends a new key at the end. -/
def qmapInsert (k : Str) (v : Question) : QMap → QMap
  | [] => [(k, v)]
  | (k1, v1) :: r => if k1 = k then (k1, v) :: r else (k1, v1) :: qmapInsert k v r

/-- Dict deletion `del questions[key]`. -/
def qmapErase (k : Str) (m : QMap) : QMap := m.filter (fun p => decide (p.1 ≠ k))

/-- The two ways extraction can fail: the `TwoQuestionsWithSameNumber`
exception naming the offending id, and an assertion failure in
`Question.__init__`. -/
inductive ParseErr where
  | dup (key : Str)
  | assertFail
deriving Repr, DecidableEq

/-- Modelled from the spec: the include and exclude patterns are compiled
with `re.compile` and tested with `regex.match`, which anchors at the start
of the id but does not require covering all of it.  The model restricts
patterns to literal strings, for which this is exactly the prefix test;
`text_matches_any_re` returns true iff some pattern in the list matches. -/
def text_matches_any_re (text : Str) (pats : List Str) : Bool :=
  pats.any (fun p => startsWithL p text)

/-- The loop body of `parse_questions` after filtering: raise
`TwoQuestionsWithSameNumber(key)` when the key is present with a question
whose rendering differs (the `__eq__` of `Question` compares renderings),
otherwise assign. -/
def parseStep (acc : QMap) (key : Str) (q : Question) : Except ParseErr QMap :=
  match qmapLookup key acc with
  | some q0 =>
    if renderPlain q ≠ renderPlain q0 then .error (.dup key)
    else .ok (qmapInsert key q acc)
  | none => .ok (qmapInsert key q acc)

/-- The match loop of `parse_questions`: skip keys filtered out by the
include list (or, when no include list is given, by the exclude list),
construct the question, and insert under the duplicate policy. -/
def parseGo (incl excl : List Str) : List RawMatch → QMap → Except ParseErr QMap
  | [], acc => .ok acc
  | m :: ms, acc =>
    let key := m.qnum
    if !incl.isEmpty && !text_matches_any_re key incl then parseGo incl excl ms acc
    else if incl.isEmpty && !excl.isEmpty && text_matches_any_re key excl then
      parseGo incl excl ms acc
    else
      match mkQuestion m with
      | none => .error .assertFail
      | some q =>
        match parseStep acc key q with
        | .error e => .error e
        | .ok acc2 => parseGo incl excl ms acc2

/-- The function `parse_questions`: extract all matches in document order
and fold them into the ordered map.  An empty pattern list models an absent
argument (argparse never produces an empty list for a repeatable option). -/
def parse_questions (text : Str) (incl excl : List Str) : Except ParseErr QMap :=
  parseGo incl excl (findMatches text) []

/-!
Rendering for presentation: the textwrap wrappers, the all-choices-correct
test and `generate_question`.  Randomness (`random.sample`) is modelled by
passing the sampled outcome as an explicit argument.
-/

/-- Python `'\n'.join`. -/
def joinNl : List Str → Str
  | [] => []
  | [l] => l
  | l :: ls => l ++ '\n' :: joinNl ls

/-- Greedy line filling for the wrapper model: the current line is extended
while the next word fits in the width, otherwise a new line starts with the
continuation indent. -/
def wrapFill (width : Nat) (ind2 : Str) : Str → List Str → List Str
  | cur, [] => [cur]
  | cur, w :: ws =>
    if cur.length + 1 + w.length ≤ width then wrapFill width ind2 (cur ++ ' ' :: w) ws
    else cur :: wrapFill width ind2 (ind2 ++ w) ws

/-- Modelled from the spec: `textwrap.TextWrapper.wrap` (standard library,
not part of this repository) word-wraps to a fixed width, 70 columns by
default, with an initial and a subsequent indent; whitespace runs are
collapsed while splitting into words.  Long-word breaking is not modelled. -/
def wrapGreedy (width : Nat) (ind1 ind2 : Str) (s : Str) : List Str :=
  match splitWs s with
  | [] => []
  | w :: ws => wrapFill width ind2 (ind1 ++ w) ws

/-- The `q_wrapper` of `Question`: default wrapper, joined with newlines. -/
def qWrap (s : Str) : Str := joinNl (wrapGreedy 70 [] [] s)

/-- The `a_wrapper` of `Question`: three-space initial and six-space
subsequent indent, joined with newlines. -/
def aWrap (s : Str) : Str :=
  joinNl (wrapGreedy 70 [' ', ' ', ' '] [' ', ' ', ' ', ' ', ' ', ' '] s)

/-- Boolean test that the pattern occurs at the end of the text. -/
def endsWithL (p s : Str) : Bool := startsWithL p.reverse s.reverse

/-- The regex `all_choices_correct_re = ^All .* correct$` under `re.match`:
anchored at the start, the dot does not cross a newline, and the dollar also
matches just before one final newline. -/
def all_choices_correct (s : Str) : Bool :=
  let core := if s.getLast? = some '\n' then s.dropLast else s
  startsWithL ['A', 'l', 'l', ' '] core
    && endsWithL [' ', 'c', 'o', 'r', 'r', 'e', 'c', 't'] core
    && decide (12 ≤ core.length)
    && !core.contains '\n'

/-- The `choice_lookup` dictionary of `generate_question` as a function
from original letter to displayed letter.  The outcome argument stands for
the result of `random.sample`: a permutation of ABC in the all-choices-
correct branch (D stays fixed), and of ABCD otherwise. -/
def choiceLookup (q : Question) (shuffle_abcd : Bool) (outcome : List Char) : Char → Char :=
  if !shuffle_abcd then fun c => c
  else if all_choices_correct (q.choice 'D') then
    fun c =>
      match c with
      | 'A' => outcome.getD 0 'A'
      | 'B' => outcome.getD 1 'B'
      | 'C' => outcome.getD 2 'C'
      | 'D' => 'D'
      | c => c
  else
    fun c =>
      match c with
      | 'A' => outcome.getD 0 'A'
      | 'B' => outcome.getD 1 'B'
      | 'C' => outcome.getD 2 'C'
      | 'D' => outcome.getD 3 'D'
      | c => c

/-- The `choices` dictionary built by `generate_question`: iterating the
original letters in order, each displayed letter maps to the wrapped line
for the original text prefixed by the displayed letter. -/
def genChoices (q : Question) (shuffle_abcd : Bool) (outcome : List Char) : List (Char × Str) :=
  let lk := choiceLookup q shuffle_abcd outcome
  [(lk 'A', aWrap (lk 'A' :: '.' :: ' ' :: q.choice 'A')),
   (lk 'B', aWrap (lk 'B' :: '.' :: ' ' :: q.choice 'B')),
   (lk 'C', aWrap (lk 'C' :: '.' :: ' ' :: q.choice 'C')),
   (lk 'D', aWrap (lk 'D' :: '.' :: ' ' :: q.choice 'D'))]

/-- Lookup in the built dictionary: the value of the last assignment wins,
as for a Python dict; a missing key yields the empty string (a `KeyError`
in the source, unreachable when the lookup is a permutation). -/
def dictGet (k : Char) (l : List (Char × Str)) : Str :=
  match (l.filter (fun p => p.1 = k)).getLast? with
  | some p => p.2
  | none => []

/-- The method `generate_question`: returns the displayed letter of the
correct answer and the full presentation text. -/
def generate_question (q : Question) (shuffle_abcd : Bool) (outcome : List Char) : Char × Str :=
  let question_text := qWrap q.question
  let lk := choiceLookup q shuffle_abcd outcome
  let choices := genChoices q shuffle_abcd outcome
  (lk q.answer,
    q.question_number ++ '\n' ::
      (question_text ++ '\n' ::
        (dictGet 'A' choices ++ '\n' ::
          (dictGet 'B' choices ++ '\n' ::
            (dictGet 'C' choices ++ '\n' ::
              (dictGet 'D' choices ++ ['\n']))))))

/-!
The interactive quiz loop `ask_questions`.  The curses screen is a display
sink and is not modelled; the keystroke stream, the sampled traversal order
of the keys and the per-question shuffle outcomes are explicit arguments.
A `getkey` call on an exhausted keystroke stream blocks forever in the
source, so the session never returns past that point: this is modelled by
ending with the current state, which is the state the session is stuck in.
-/

/-- The inner keypress loop: invalid keys only redisplay the help text, so
the loop consumes keystrokes until one uppercases to A, B, C, D, S or Q. -/
def nextValidKey : List Char → Option (Char × List Char)
  | [] => none
  | k :: ks =>
    let u := k.toUpper
    if u = 'A' || u = 'B' || u = 'C' || u = 'D' || u = 'S' || u = 'Q' then some (u, ks)
    else nextValidKey ks

/-- The presentation loop of `ask_questions`, carrying the shared map and
the three counters.  Q returns immediately; the correct letter increments
`correct` and deletes the question from the map; S increments `skipped` and
any wrong letter increments `incorrect`, both consuming one further
acknowledgment keystroke. -/
def ask_loop (shuffle_abcd : Bool) (shuffles : Nat → List Char) :
    QMap → Nat → Nat → Nat → List Str → Nat → List Char → QMap × Nat × Nat × Nat
  | qs, c, i, s, [], _, _ => (qs, c, i, s)
  | qs, c, i, s, k :: perm, step, keys =>
    match qmapLookup k qs with
    | none => (qs, c, i, s)
    | some q =>
      match nextValidKey keys with
      | none => (qs, c, i, s)
      | some (a, ks) =>
        if a = 'Q' then (qs, c, i, s)
        else
          let ca := (generate_question q shuffle_abcd (shuffles step)).1
          if a = ca then
            ask_loop shuffle_abcd shuffles (qmapErase k qs) (c + 1) i s perm (step + 1) ks
          else if a = 'S' then
            match ks with
            | [] => (qs, c, i, s + 1)
            | _ :: ks2 => ask_loop shuffle_abcd shuffles qs c i (s + 1) perm (step + 1) ks2
          else
            match ks with
            | [] => (qs, c, i + 1, s)
            | _ :: ks2 => ask_loop shuffle_abcd shuffles qs c (i + 1) s perm (step + 1) ks2

/-- Specification-side replay of `ask_loop` that records which keys are
deleted from the map, that is, which questions are answered with the
correct letter.  It follows the loop branch for branch. -/
def removed_keys (shuffle_abcd : Bool) (shuffles : Nat → List Char) :
    QMap → List Str → Nat → List Char → List Str
  | _, [], _, _ => []
  | qs, k :: perm, step, keys =>
    match qmapLookup k qs with
    | none => []
    | some q =>
      match nextValidKey keys with
      | none => []
      | some (a, ks) =>
        if a = 'Q' then []
        else
          let ca := (generate_question q shuffle_abcd (shuffles step)).1
          if a = ca then
            k :: removed_keys shuffle_abcd shuffles (qmapErase k qs) perm (step + 1) ks
          else if a = 'S' then
            match ks with
            | [] => []
            | _ :: ks2 => removed_keys shuffle_abcd shuffles qs perm (step + 1) ks2
          else
            match ks with
            | [] => []
            | _ :: ks2 => removed_keys shuffle_abcd shuffles qs perm (step + 1) ks2

/-- The function `ask_questions`: raises `WinTooSmallError` once, before
the presentation loop, when the screen has fewer than 24 rows or 80
columns; otherwise runs the loop from zeroed counters. -/
def ask_questions (rows cols : Nat) (qs : QMap) (shuffle_abcd : Bool)
    (perm : List Str) (shuffles : Nat → List Char) (keys : List Char) :
    Except Unit (QMap × Nat × Nat × Nat) :=
  if rows < 24 || cols < 80 then .error ()
  else .ok (ask_loop shuffle_abcd shuffles qs 0 0 0 perm 0 keys)

/-!
The session driver `main`: extraction, the optional interactive session,
and the output of the remaining questions, one rendering per question, each
followed by the newline `print` appends.
-/

/-- Output of the final loop of `main`: each remaining question rendered
by `Question.__str__` and printed with a trailing newline. -/
def emitQuestions : QMap → Str
  | [] => []
  | (_, q) :: r => renderPlain q ++ '\n' :: emitQuestions r

/-- Exit code, text written to the output sink and text written to the
error stream by one run of `main`. -/
structure MainResult where
  exitCode : Nat
  output : Str
  errOut : Str
deriving Repr, DecidableEq

/-- The message printed to stderr when `WinTooSmallError` is caught. -/
def winMsg : Str := ('T' :: "he terminal window must be at least 80x24.".toList) ++ ['\n']

/-- The function `main` over already-read input text: parse, optionally run
the interactive session (the shuffle flag forces it on), then emit the
remaining questions.  An extraction error escapes as an uncaught exception:
nonzero exit status, a traceback on the error stream, and no output. -/
def mainModel (verbose ask_q shuffle : Bool) (incl excl : List Str) (text : Str)
    (rows cols : Nat) (perm : List Str) (shuffles : Nat → List Char)
    (keys : List Char) : MainResult :=
  match parse_questions text incl excl with
  | .error _ => ⟨1, [], ('T' :: "raceback".toList) ++ ['\n']⟩
  | .ok qs =>
    let ask2 := ask_q || shuffle
    if ask2 then
      match ask_questions rows cols qs shuffle perm shuffles keys with
      | .error _ => ⟨1, [], winMsg⟩
      | .ok (qs2, _, _, _) =>
        ⟨0, emitQuestions qs2,
          if verbose then
            ('O' :: "utputting ".toList) ++ (toString qs2.length).toList
              ++ (' ' :: "questions.".toList) ++ ['\n']
          else []⟩
    else
      ⟨0, emitQuestions qs,
        if verbose then
          ('O' :: "utputting ".toList) ++ (toString qs.length).toList
            ++ (' ' :: "questions.".toList) ++ ['\n']
        else []⟩

/-!
Concrete texts used by the end-to-end claims.
-/

/-- The end-to-end example text exactly as the specification gives it, with
tilde characters separating the question from the choices. -/
def c8ExampleText : Str :=
  "T1A01 (A) Regulation? [Part 97] What is the...~A. Choice1~B. Choice2~C. Choice3~D. Choice4~~~".toList

/-- The end-to-end example reformatted the way the parsed pools are laid
out: the bracketed citation directly after the answer and newline-separated
choices, with the tilde run only as terminator. -/
def c8FixedText : Str :=
  "T1A01 (A) [Part 97] What is the...\nA. Choice1\nB. Choice2\nC. Choice3\nD. Choice4\n~~~".toList

/-- The question record the reformatted example parses to.  The stored
regulation keeps the space that preceded the opening bracket. -/
def c8Question : Question :=
  ⟨"T1A01".toList, 'A', " [Part 97]".toList, "What is the...".toList,
    "Choice1".toList, "Choice2".toList, "Choice3".toList, "Choice4".toList⟩

/-!
Helper lemmas about the ordered map.
-/

theorem qmapLookup_mem {k : Str} {m : QMap} {q : Question}
    (h : qmapLookup k m = some q) : k ∈ m.map Prod.fst := by
  induction m with
  | nil => exact Option.noConfusion h
  | cons p r ih =>
    by_cases hk : p.1 = k
    · rw [List.map_cons, hk]
      exact List.mem_cons_self k _
    · simp only [qmapLookup, if_neg hk] at h
      exact List.mem_cons_of_mem _ (ih h)

theorem qmapLookup_none {k : Str} {m : QMap}
    (h : qmapLookup k m = none) : k ∉ m.map Prod.fst := by
  induction m with
  | nil => simp
  | cons p r ih =>
    by_cases hk : p.1 = k
    · simp [qmapLookup, if_pos hk] at h
    · simp only [qmapLookup, if_neg hk] at h
      simp [ih h, Ne.symm hk]

theorem qmapInsert_keys_of_lookup {k : Str} {m : QMap} {q0 : Question} (v : Question)
    (h : qmapLookup k m = some q0) :
    (qmapInsert k v m).map Prod.fst = m.map Prod.fst := by
  induction m with
  | nil => exact Option.noConfusion h
  | cons p r ih =>
    by_cases hk : p.1 = k
    · simp [qmapInsert, if_pos hk]
    · simp only [qmapLookup, if_neg hk] at h
      simp [qmapInsert, if_neg hk, ih h]

theorem qmapInsert_keys_of_none {k : Str} {m : QMap} (v : Question)
    (h : qmapLookup k m = none) :
    (qmapInsert k v m).map Prod.fst = m.map Prod.fst ++ [k] := by
  induction m with
  | nil => simp [qmapInsert]
  | cons p r ih =>
    by_cases hk : p.1 = k
    · simp [qmapLookup, if_pos hk] at h
    · simp only [qmapLookup, if_neg hk] at h
      simp [qmapInsert, if_neg hk, ih h]

/-!
Claim C3: the duplicate-id policy.
-/

/-- A question differing from the reformatted example only in the answer
letter, so the two renderings differ. -/
def c3MismatchQ : Question := { c8Question with answer := 'B' }

/-- A question with a different id, for the key-order instance. -/
def g2Question : Question := { c8Question with question_number := "G2B03".toList }

/-- The same valid block twice. -/
def c3TwiceText : Str := renderPlain c8Question ++ '\n' :: renderPlain c8Question

/-- Two blocks sharing an id but with different answer letters. -/
def c3MismatchText : Str := renderPlain c8Question ++ '\n' :: renderPlain c3MismatchQ

/-- Three blocks: T1A01, then G2B03, then T1A01 again identically. -/
def c3OrderText : Str :=
  renderPlain c8Question ++ '\n' ::
    (renderPlain g2Question ++ '\n' :: renderPlain c8Question)

/-- Claim C3: extraction scans in document order; the loop body raises the
duplicate error naming the id when the id is already present with a record
whose rendering differs, and re-inserts idempotently (same keys, first
position kept) when the record is identical; concretely, the same block
twice yields one entry and no error, two blocks with the same id but
different answer letters yield the error naming the id, and re-encountering
an id keeps its first-occurrence position in the key order. -/
theorem c3_duplicate_policy :
    (∀ (acc : QMap) (key : Str) (q q0 : Question),
        qmapLookup key acc = some q0 → renderPlain q ≠ renderPlain q0 →
        parseStep acc key q = Except.error (ParseErr.dup key))
    ∧ (∀ (acc : QMap) (key : Str) (q q0 : Question),
        qmapLookup key acc = some q0 → renderPlain q = renderPlain q0 →
        parseStep acc key q = Except.ok (qmapInsert key q acc)
          ∧ (qmapInsert key q acc).map Prod.fst = acc.map Prod.fst)
    ∧ parse_questions c3TwiceText [] [] = Except.ok [("T1A01".toList, c8Question)]
    ∧ parse_questions c3MismatchText [] [] = Except.error (ParseErr.dup "T1A01".toList)
    ∧ (parse_questions c3OrderText [] []).map (fun m => m.map Prod.fst)
        = Except.ok ["T1A01".toList, "G2B03".toList] := by
  refine ⟨?_, ?_, by rfl, by rfl, by rfl⟩
  · intro acc key q q0 h hne
    simp [parseStep, h, hne]
  · intro acc key q q0 h he
    exact ⟨by simp [parseStep, h, he], qmapInsert_keys_of_lookup q h⟩

/-- Witness for claim C3: the universal parts applied to a concrete
one-entry map, a mismatching and a matching question. -/
theorem c3_duplicate_policy_witness :
    parseStep [("T1A01".toList, c8Question)] "T1A01".toList c3MismatchQ
        = Except.error (ParseErr.dup "T1A01".toList)
      ∧ parseStep [("T1A01".toList, c8Question)] "T1A01".toList c8Question
          = Except.ok (qmapInsert "T1A01".toList c8Question [("T1A01".toList, c8Question)])
      ∧ (qmapInsert "T1A01".toList c8Question [("T1A01".toList, c8Question)]).map Prod.fst
          = [("T1A01".toList, c8Question)].map Prod.fst :=
  ⟨c3_duplicate_policy.1 _ _ _ _ (by rfl) (by decide),
   (c3_duplicate_policy.2.1 _ _ _ _ (by rfl) rfl).1,
   (c3_duplicate_policy.2.1 _ _ _ _ (by rfl) rfl).2⟩

/-!
Claim C4: filtering semantics.
-/

/-- First-occurrence deduplication of a key list relative to keys already
seen; together with `parseGo_keys` this characterizes the key order of the
extracted map. -/
def firstDedupEx (seen : List Str) : List Str → List Str
  | [] => []
  | k :: l => if k ∈ seen then firstDedupEx seen l else k :: firstDedupEx (k :: seen) l

theorem firstDedupEx_congr : ∀ (l : List Str) (s1 s2 : List Str),
    (∀ x, x ∈ s1 ↔ x ∈ s2) → firstDedupEx s1 l = firstDedupEx s2 l := by
  intro l
  induction l with
  | nil => intro s1 s2 _; rfl
  | cons k l ih =>
    intro s1 s2 hset
    by_cases hk : k ∈ s1
    · simp only [firstDedupEx, if_pos hk, if_pos ((hset k).mp hk)]
      exact ih s1 s2 hset
    · simp only [firstDedupEx, if_neg hk, if_neg (fun hx => hk ((hset k).mpr hx))]
      exact congrArg (k :: ·) (ih (k :: s1) (k :: s2) (fun x => by simp [hset x]))

/-- Whether the extraction loop keeps a key: an include list keeps the
matching keys, otherwise an exclude list drops the matching keys, otherwise
everything is kept. -/
def keepKey (incl excl : List Str) (k : Str) : Bool :=
  if !incl.isEmpty then text_matches_any_re k incl
  else if !excl.isEmpty then !text_matches_any_re k excl
  else true

theorem parseGo_keys (incl excl : List Str) :
    ∀ (ms : List RawMatch) (acc m : QMap), parseGo incl excl ms acc = Except.ok m →
    m.map Prod.fst = acc.map Prod.fst
      ++ firstDedupEx (acc.map Prod.fst)
          ((ms.map RawMatch.qnum).filter (keepKey incl excl)) := by
  intro ms
  induction ms with
  | nil =>
    intro acc m h
    simp only [parseGo] at h
    injection h with h2
    subst h2
    simp [firstDedupEx]
  | cons mm ms ih =>
    intro acc m h
    simp only [parseGo] at h
    by_cases hs1 : (!incl.isEmpty && !text_matches_any_re mm.qnum incl) = true
    · rw [if_pos hs1] at h
      have hkeep : keepKey incl excl mm.qnum = false := by
        rcases Bool.and_eq_true_iff.mp hs1 with ⟨h1, h2⟩
        simp only [keepKey, if_pos h1]
        exact (Bool.not_eq_true' _).mp h2
      rw [List.map_cons, List.filter_cons, hkeep]
      simpa using ih acc m h
    · rw [if_neg hs1] at h
      by_cases hs2 : (incl.isEmpty && !excl.isEmpty && text_matches_any_re mm.qnum excl) = true
      · rw [if_pos hs2] at h
        have hkeep : keepKey incl excl mm.qnum = false := by
          rcases Bool.and_eq_true_iff.mp hs2 with ⟨h12, h3⟩
          rcases Bool.and_eq_true_iff.mp h12 with ⟨h1, h2⟩
          simp only [keepKey, h1, h2, h3, Bool.not_true, if_neg, Bool.not_false, if_pos]
          simp
        rw [List.map_cons, List.filter_cons, hkeep]
        simpa using ih acc m h
      · rw [if_neg hs2] at h
        have hkeep : keepKey incl excl mm.qnum = true := by
          cases hie : incl.isEmpty with
          | false =>
            have hm : text_matches_any_re mm.qnum incl = true := by
              cases hm : text_matches_any_re mm.qnum incl with
              | true => rfl
              | false => exact absurd (by simp [hie, hm]) hs1
            simp [keepKey, hie, hm]
          | true =>
            cases hee : excl.isEmpty with
            | true => simp [keepKey, hie, hee]
            | false =>
              have hm : text_matches_any_re mm.qnum excl = false := by
                cases hm : text_matches_any_re mm.qnum excl with
                | false => rfl
                | true => exact absurd (by simp [hie, hee, hm]) hs2
              simp [keepKey, hie, hee, hm]
        rw [List.map_cons, List.filter_cons, hkeep]
        simp only [if_pos]
        cases hq : mkQuestion mm with
        | none => rw [hq] at h; exact Except.noConfusion h
        | some q =>
          rw [hq] at h
          dsimp only at h
          cases hstep : parseStep acc mm.qnum q with
          | error e => rw [hstep] at h; exact Except.noConfusion h
          | ok acc2 =>
            rw [hstep] at h
            dsimp only at h
            have hrec := ih acc2 m h
            unfold parseStep at hstep
            cases hl : qmapLookup mm.qnum acc with
            | some q0 =>
              rw [hl] at hstep
              dsimp only at hstep
              by_cases hne : renderPlain q ≠ renderPlain q0
              · rw [if_pos hne] at hstep; exact Except.noConfusion hstep
              · rw [if_neg hne] at hstep
                injection hstep with hacc2
                have hkeys : acc2.map Prod.fst = acc.map Prod.fst :=
                  hacc2 ▸ qmapInsert_keys_of_lookup q hl
                have hmem : mm.qnum ∈ acc.map Prod.fst := qmapLookup_mem hl
                rw [hrec, hkeys, firstDedupEx, if_pos hmem]
            | none =>
              rw [hl] at hstep
              dsimp only at hstep
              injection hstep with hacc2
              have hkeys : acc2.map Prod.fst = acc.map Prod.fst ++ [mm.qnum] :=
                hacc2 ▸ qmapInsert_keys_of_none q hl
              have hmem : mm.qnum ∉ acc.map Prod.fst := qmapLookup_none hl
              rw [hrec, hkeys, firstDedupEx, if_neg hmem, List.append_assoc]
              refine congrArg (acc.map Prod.fst ++ ·) ?_
              refine congrArg (fun t => mm.qnum :: t) ?_
              refine firstDedupEx_congr _ _ _ (fun x => ?_)
              rw [List.mem_append, List.mem_singleton, List.mem_cons]
              exact or_comm

/-- Claim C4: if an include list is given the extraction result contains
exactly the parsed ids matching at least one include pattern, in first-
occurrence order; otherwise, if an exclude list is given, exactly the ids
matching at least one exclude pattern are dropped; with neither list every
parsed id is kept; patterns are matched anchored at the start of the id
without requiring a full match, so the two-character pattern T1 keeps the
id T1A01 under include and drops it under exclude. -/
theorem c4_filtering :
    (∀ (text : Str) (incl excl : List Str) (m : QMap),
      parse_questions text incl excl = Except.ok m →
      (incl ≠ [] → m.map Prod.fst =
        firstDedupEx [] (((findMatches text).map RawMatch.qnum).filter
          (fun k => text_matches_any_re k incl)))
      ∧ (incl = [] → excl ≠ [] → m.map Prod.fst =
        firstDedupEx [] (((findMatches text).map RawMatch.qnum).filter
          (fun k => !text_matches_any_re k excl)))
      ∧ (incl = [] → excl = [] → m.map Prod.fst =
        firstDedupEx [] ((findMatches text).map RawMatch.qnum)))
    ∧ parse_questions c3OrderText ["T1".toList] []
        = Except.ok [("T1A01".toList, c8Question)]
    ∧ parse_questions c3OrderText [] ["T1".toList]
        = Except.ok [("G2B03".toList, g2Question)] := by
  refine ⟨?_, by rfl, by rfl⟩
  intro text incl excl m h
  have hkeys := parseGo_keys incl excl (findMatches text) [] m h
  simp only [List.map_nil, List.nil_append] at hkeys
  refine ⟨?_, ?_, ?_⟩
  · intro hne
    match incl, hne with
    | a :: l, _ =>
      rw [hkeys]
      refine congrArg (firstDedupEx []) (List.filter_congr ?_)
      intro x _
      simp [keepKey]
  · intro hie hne
    subst hie
    match excl, hne with
    | a :: l, _ =>
      rw [hkeys]
      refine congrArg (firstDedupEx []) (List.filter_congr ?_)
      intro x _
      simp [keepKey]
  · intro hie hee
    subst hie; subst hee
    rw [hkeys]
    have : ∀ x ∈ (findMatches text).map RawMatch.qnum, keepKey [] [] x = true := by
      intro x _; simp [keepKey]
    rw [List.filter_congr this, List.filter_true]

/-- Witness for claim C4: the include branch applied to the three-block
text with the prefix pattern T1. -/
theorem c4_filtering_witness :
    ([("T1A01".toList, c8Question)] : QMap).map Prod.fst
      = firstDedupEx [] (((findMatches c3OrderText).map RawMatch.qnum).filter
          (fun k => text_matches_any_re k ["T1".toList])) :=
  (c4_filtering.1 c3OrderText ["T1".toList] [] _ (by rfl)).1 (List.cons_ne_nil _ _)

/-!
Claim C10: the Regulation capture retains its leading whitespace.
-/

theorem takeWhile_middle {p : Char → Bool} :
    ∀ (l1 : Str) (x : Char) (l2 : Str), (∀ y ∈ l1, p y = true) → p x = false →
    (l1 ++ x :: l2).takeWhile p = l1 ∧ (l1 ++ x :: l2).dropWhile p = x :: l2 := by
  intro l1
  induction l1 with
  | nil =>
    intro x l2 _ hx
    simp [List.takeWhile, List.dropWhile, hx]
  | cons c l1 ih =>
    intro x l2 hall hx
    have hc : p c = true := hall c (List.mem_cons_self c l1)
    have := ih x l2 (fun y hy => hall y (List.mem_cons_of_mem c hy)) hx
    simp [List.takeWhile, List.dropWhile, hc, this.1, this.2]

theorem isSpaceChar_ne_lb {c : Char} (h : isSpaceChar c = true) : ¬ c = '[' := by
  simp only [isSpaceChar, Bool.or_eq_true, decide_eq_true_eq] at h
  rcases h with ((((h | h) | h) | h) | h) | h <;> subst h <;> decide

theorem regTryGo_ws :
    ∀ (pre accWs mid rest : Str), pre.all isSpaceChar = true → mid ≠ [] → ']' ∉ mid →
    regTryGo accWs (pre ++ '[' :: (mid ++ ']' :: rest))
      = some (accWs.reverse ++ (pre ++ '[' :: (mid ++ [']'])), rest) := by
  intro pre
  induction pre with
  | nil =>
    intro accWs mid rest _ hne hmem
    have htk := takeWhile_middle (p := fun b => decide (b ≠ ']')) mid ']' rest
      (fun y hy => by simp; exact fun h => hmem (h ▸ hy)) (by simp)
    simp only [List.nil_append, regTryGo, if_pos rfl, htk.1, htk.2]
    have : mid.isEmpty = false := by
      cases mid with
      | nil => exact absurd rfl hne
      | cons a l => rfl
    simp [this]
  | cons c pre ih =>
    intro accWs mid rest hall hne hmem
    have hc : isSpaceChar c = true := by
      simp only [List.all_cons, Bool.and_eq_true] at hall
      exact hall.1
    have hall2 : pre.all isSpaceChar = true := by
      simp only [List.all_cons, Bool.and_eq_true] at hall
      exact hall.2
    simp only [List.cons_append, regTryGo, if_neg (isSpaceChar_ne_lb hc), if_pos hc,
      List.append_eq]
    rw [ih (c :: accWs) mid rest hall2 hne hmem]
    simp [List.append_assoc]

/-- Claim C10: the Regulation group captures the whitespace that precedes
the opening bracket in the source, `Question.__init__` stores a missing or
whitespace-only capture as the empty string and any other capture verbatim
(leading whitespace included), and the canonical rendering places the
stored regulation directly after the parenthesized answer with no separator
of its own. -/
theorem c10_regulation :
    (∀ (pre mid rest : Str), pre.all isSpaceChar = true → mid ≠ [] → ']' ∉ mid →
      regTry (pre ++ '[' :: (mid ++ ']' :: rest))
        = some (pre ++ '[' :: (mid ++ [']']), rest))
    ∧ (∀ (m : RawMatch) (q : Question), mkQuestion m = some q →
      q.regulation = match m.reg with
        | none => []
        | some r => if r.all isSpaceChar then [] else r)
    ∧ (∀ q : Question, renderPlain q =
      (q.question_number ++ [' ', '(', q.answer, ')']) ++ q.regulation
        ++ ('\n' :: (q.question ++ '\n' :: 'A' :: '.' :: ' ' ::
          (q.choiceA ++ '\n' :: 'B' :: '.' :: ' ' ::
            (q.choiceB ++ '\n' :: 'C' :: '.' :: ' ' ::
              (q.choiceC ++ '\n' :: 'D' :: '.' :: ' ' ::
                (q.choiceD ++ ['\n', '~', '~']))))))) := by
  refine ⟨?_, ?_, ?_⟩
  · intro pre mid rest hall hne hmem
    have := regTryGo_ws pre [] mid rest hall hne hmem
    simpa [regTry] using this
  · intro m q h
    simp only [mkQuestion] at h
    split at h
    · exact Option.noConfusion h
    · injection h with h2
      subst h2
      rfl
  · intro q
    simp [renderPlain, List.append_assoc]

/-- A raw match whose construction yields the reformatted example record. -/
def c10Match : RawMatch :=
  ⟨"T1A01".toList, 'A', some " [Part 97]".toList, "\nWhat is the...".toList,
    " Choice1".toList, " Choice2".toList, " Choice3".toList, " Choice4".toList, []⟩

/-- Witness for claim C10: the Regulation-capture equation at a concrete
whitespace-bracket split, and the stored-regulation equation at a concrete
raw match. -/
theorem c10_regulation_witness :
    regTry ([' '] ++ '[' :: ("97.1".toList ++ ']' :: " after".toList))
        = some ([' '] ++ '[' :: ("97.1".toList ++ [']']), " after".toList)
      ∧ c8Question.regulation
        = (match c10Match.reg with
            | none => []
            | some r => if r.all isSpaceChar then [] else r) :=
  ⟨c10_regulation.1 [' '] "97.1".toList " after".toList (by decide) (by decide) (by decide),
   c10_regulation.2.1 c10Match c8Question (by rfl)⟩

/-!
Claim C9: terminal-too-small handling.
-/

/-- Claim C9: with interactive mode requested and a screen smaller than 80
columns by 24 rows, the quiz engine fails once, before the presentation
loop, whatever the map, traversal order, shuffle outcomes and keystrokes
are; the driver then prints the message to the error stream, exits with the
distinct nonzero status 1, and writes no question output. -/
theorem c9_terminal_too_small :
    (∀ (rows cols : Nat) (qs : QMap) (shuffle : Bool) (perm : List Str)
        (shuffles : Nat → List Char) (keys : List Char),
      rows < 24 ∨ cols < 80 →
      ask_questions rows cols qs shuffle perm shuffles keys = Except.error ())
    ∧ (∀ (verbose ask_q shuffle : Bool) (incl excl : List Str) (text : Str)
        (rows cols : Nat) (perm : List Str) (shuffles : Nat → List Char)
        (keys : List Char) (qs : QMap),
      parse_questions text incl excl = Except.ok qs →
      (ask_q || shuffle) = true →
      rows < 24 ∨ cols < 80 →
      mainModel verbose ask_q shuffle incl excl text rows cols perm shuffles keys
          = ⟨1, [], winMsg⟩
        ∧ (1 : Nat) ≠ 0) := by
  constructor
  · intro rows cols qs shuffle perm shuffles keys h
    have hb : (rows < 24 || cols < 80) = true := by
      rcases h with h | h <;> simp [h]
    simp [ask_questions, hb]
  · intro verbose ask_q shuffle incl excl text rows cols perm shuffles keys qs hp hflag hsmall
    refine ⟨?_, by decide⟩
    have hb : (rows < 24 || cols < 80) = true := by
      rcases hsmall with h | h <;> simp [h]
    simp [mainModel, hp, hflag, ask_questions, hb]

/-- Witness for claim C9: a 100 by 10 screen with interactive mode on. -/
theorem c9_terminal_too_small_witness :
    ask_questions 10 100 [] false [] (fun _ => []) [] = Except.error ()
      ∧ mainModel false true false [] [] [] 10 100 [] (fun _ => []) []
          = ⟨1, [], winMsg⟩ :=
  ⟨c9_terminal_too_small.1 10 100 [] false [] (fun _ => []) [] (Or.inl (by decide)),
   (c9_terminal_too_small.2 false true false [] [] [] 10 100 [] (fun _ => []) [] []
      (by rfl) (by rfl) (Or.inl (by decide))).1⟩

/-!
Claim C2: the shuffle invariant of `generate_question`.
-/

theorem filter_eq_nil_of_not_mem {k : Char} :
    ∀ {l : List (Char × Str)}, k ∉ l.map Prod.fst →
    l.filter (fun p => p.1 = k) = [] := by
  intro l
  induction l with
  | nil => intro _; rfl
  | cons p l ih =>
    intro h
    have h1 : ¬ p.1 = k := fun he => h (by rw [List.map_cons, he]; exact List.mem_cons_self k _)
    have h2 : k ∉ l.map Prod.fst := fun hm => h (List.mem_cons_of_mem _ hm)
    simp [List.filter_cons, h1, ih h2]

theorem dictGet_of_nodup_mem {k : Char} {v : Str} :
    ∀ {l : List (Char × Str)}, (l.map Prod.fst).Nodup → (k, v) ∈ l →
    dictGet k l = v := by
  intro l
  induction l with
  | nil => intro _ hm; cases hm
  | cons p l ih =>
    intro hnd hm
    rw [List.map_cons, List.nodup_cons] at hnd
    cases hm with
    | head =>
      have : l.filter (fun p => p.1 = k) = [] := filter_eq_nil_of_not_mem hnd.1
      simp [dictGet, List.filter_cons, this]
    | tail _ hm2 =>
      have hk : k ∈ l.map Prod.fst :=
        List.mem_map.mpr ⟨(k, v), hm2, rfl⟩
      have h1 : ¬ p.1 = k := fun he => hnd.1 (he ▸ hk)
      have := ih hnd.2 hm2
      simp only [dictGet, List.filter_cons, h1] at this ⊢
      simpa using this

/-- Claim C2: for every question and every sampled outcome, presenting with
shuffling on returns a correct letter whose entry in the built choices
dictionary is precisely the wrapped line of the originally correct choice
text; the presentation text lists the question number, the wrapped question
and the dictionary entries for the displayed letters A to D in order; and
whenever the original choice D matches `All ... correct`, the letter D is
fixed, the entry at D shows exactly the original D text, and the displayed
letters of A, B and C stay inside the set A, B, C. -/
theorem c2_shuffle_invariant :
    ∀ (q : Question) (oc : List Char),
      (q.answer = 'A' ∨ q.answer = 'B' ∨ q.answer = 'C' ∨ q.answer = 'D') →
      (all_choices_correct (q.choice 'D') = true → oc.Perm ['A', 'B', 'C']) →
      (all_choices_correct (q.choice 'D') = false → oc.Perm ['A', 'B', 'C', 'D']) →
      dictGet ((generate_question q true oc).1) (genChoices q true oc)
          = aWrap ((generate_question q true oc).1 :: '.' :: ' ' :: q.choice q.answer)
      ∧ (generate_question q true oc).2
          = q.question_number ++ '\n' ::
              (qWrap q.question ++ '\n' ::
                (dictGet 'A' (genChoices q true oc) ++ '\n' ::
                  (dictGet 'B' (genChoices q true oc) ++ '\n' ::
                    (dictGet 'C' (genChoices q true oc) ++ '\n' ::
                      (dictGet 'D' (genChoices q true oc) ++ ['\n'])))))
      ∧ (all_choices_correct (q.choice 'D') = true →
          choiceLookup q true oc 'D' = 'D'
          ∧ dictGet 'D' (genChoices q true oc) = aWrap ('D' :: '.' :: ' ' :: q.choice 'D')
          ∧ (∀ c, c = 'A' ∨ c = 'B' ∨ c = 'C' →
              choiceLookup q true oc c = 'A' ∨ choiceLookup q true oc c = 'B'
                ∨ choiceLookup q true oc c = 'C')) := by
  intro q oc hans hp3 hp4
  cases hacc : all_choices_correct (q.choice 'D') with
  | true =>
    have hperm := hp3 hacc
    have hlen : oc.length = 3 := hperm.length_eq
    match oc, hlen with
    | [x, y, z], _ =>
      have hmx : x ∈ ['A', 'B', 'C'] := hperm.subset (by simp)
      have hmy : y ∈ ['A', 'B', 'C'] := hperm.subset (by simp)
      have hmz : z ∈ ['A', 'B', 'C'] := hperm.subset (by simp)
      have hnd : ([x, y, z] : List Char).Nodup := hperm.nodup_iff.mpr (by decide)
      have hxy : x ≠ y := by simp [List.nodup_cons] at hnd; exact hnd.1.1
      have hxz : x ≠ z := by simp [List.nodup_cons] at hnd; exact hnd.1.2
      have hyz : y ≠ z := by simp [List.nodup_cons] at hnd; exact hnd.2
      have hxD : x ≠ 'D' := by intro h; rw [h] at hmx; simp at hmx
      have hyD : y ≠ 'D' := by intro h; rw [h] at hmy; simp at hmy
      have hzD : z ≠ 'D' := by intro h; rw [h] at hmz; simp at hmz
      have hlkA : choiceLookup q true [x, y, z] 'A' = x := by
        simp [choiceLookup, hacc]
      have hlkB : choiceLookup q true [x, y, z] 'B' = y := by
        simp [choiceLookup, hacc]
      have hlkC : choiceLookup q true [x, y, z] 'C' = z := by
        simp [choiceLookup, hacc]
      have hlkD : choiceLookup q true [x, y, z] 'D' = 'D' := by
        simp [choiceLookup, hacc]
      have hkeys : ((genChoices q true [x, y, z]).map Prod.fst).Nodup := by
        simp only [genChoices, List.map_cons, List.map_nil, hlkA, hlkB, hlkC, hlkD]
        simp [List.nodup_cons, hxy, hxz, hyz, hxD, hyD, hzD]
      refine ⟨?_, rfl, fun _ => ⟨hlkD, ?_, ?_⟩⟩
      · have hg1 : (generate_question q true [x, y, z]).1 = choiceLookup q true [x, y, z] q.answer := rfl
        rcases hans with ha | ha | ha | ha <;>
          rw [hg1, ha] <;>
          [rw [hlkA]; rw [hlkB]; rw [hlkC]; rw [hlkD]] <;>
          refine dictGet_of_nodup_mem hkeys ?_ <;>
          simp only [genChoices, hlkA, hlkB, hlkC, hlkD] <;>
          simp [ha]
      · refine dictGet_of_nodup_mem hkeys ?_
        simp only [genChoices, hlkA, hlkB, hlkC, hlkD]
        simp
      · intro c hc
        have : ∀ w, w ∈ ['A', 'B', 'C'] → w = 'A' ∨ w = 'B' ∨ w = 'C' := by decide
        rcases hc with rfl | rfl | rfl
        · rw [hlkA]; exact this x hmx
        · rw [hlkB]; exact this y hmy
        · rw [hlkC]; exact this z hmz
  | false =>
    have hperm := hp4 hacc
    have hlen : oc.length = 4 := hperm.length_eq
    match oc, hlen with
    | [w, x, y, z], _ =>
      have hnd : ([w, x, y, z] : List Char).Nodup := hperm.nodup_iff.mpr (by decide)
      have hwx : w ≠ x := by simp [List.nodup_cons] at hnd; exact hnd.1.1
      have hwy : w ≠ y := by simp [List.nodup_cons] at hnd; exact hnd.1.2.1
      have hwz : w ≠ z := by simp [List.nodup_cons] at hnd; exact hnd.1.2.2
      have hxy : x ≠ y := by simp [List.nodup_cons] at hnd; exact hnd.2.1.1
      have hxz : x ≠ z := by simp [List.nodup_cons] at hnd; exact hnd.2.1.2
      have hyz : y ≠ z := by simp [List.nodup_cons] at hnd; exact hnd.2.2
      have hlkA : choiceLookup q true [w, x, y, z] 'A' = w := by
        simp [choiceLookup, hacc]
      have hlkB : choiceLookup q true [w, x, y, z] 'B' = x := by
        simp [choiceLookup, hacc]
      have hlkC : choiceLookup q true [w, x, y, z] 'C' = y := by
        simp [choiceLookup, hacc]
      have hlkD : choiceLookup q true [w, x, y, z] 'D' = z := by
        simp [choiceLookup, hacc]
      have hkeys : ((genChoices q true [w, x, y, z]).map Prod.fst).Nodup := by
        simp only [genChoices, List.map_cons, List.map_nil, hlkA, hlkB, hlkC, hlkD]
        simp [List.nodup_cons, hwx, hwy, hwz, hxy, hxz, hyz]
      refine ⟨?_, rfl, fun hcontra => absurd hcontra (by simp [hacc])⟩
      have hg1 : (generate_question q true [w, x, y, z]).1
          = choiceLookup q true [w, x, y, z] q.answer := rfl
      rcases hans with ha | ha | ha | ha <;>
        rw [hg1, ha] <;>
        [rw [hlkA]; rw [hlkB]; rw [hlkC]; rw [hlkD]] <;>
        refine dictGet_of_nodup_mem hkeys ?_ <;>
        simp only [genChoices, hlkA, hlkB, hlkC, hlkD] <;>
        simp [ha]

/-- A question whose original choice D matches the all-choices-correct
pattern. -/
def c2DemoQ : Question := { c8Question with choiceD := "All these choices are correct".toList }

/-- Witness for claim C2: the demo question with the sampled outcome B, C,
A; the entry at the returned correct letter is the wrapped original correct
choice text. -/
theorem c2_shuffle_invariant_witness :
    dictGet ((generate_question c2DemoQ true ['B', 'C', 'A']).1)
        (genChoices c2DemoQ true ['B', 'C', 'A'])
      = aWrap ((generate_question c2DemoQ true ['B', 'C', 'A']).1 :: '.' :: ' ' ::
          c2DemoQ.choice c2DemoQ.answer) :=
  (c2_shuffle_invariant c2DemoQ ['B', 'C', 'A'] (by decide) (by decide) (by decide)).1

/-!
Claim C5: quiz conservation and removal-iff-correct.
-/

theorem qmapErase_keys (k : Str) :
    ∀ (m : QMap), (qmapErase k m).map Prod.fst
      = (m.map Prod.fst).filter (fun x => decide (x ≠ k)) := by
  intro m
  induction m with
  | nil => rfl
  | cons p l ih =>
    by_cases hk : p.1 = k
    · simp [qmapErase, List.filter_cons, hk] at ih ⊢
      simpa [qmapErase] using ih
    · simp [qmapErase, List.filter_cons, hk] at ih ⊢
      simpa [qmapErase] using ih

theorem qmapErase_of_not_mem {k : Str} :
    ∀ {m : QMap}, k ∉ m.map Prod.fst → qmapErase k m = m := by
  intro m
  induction m with
  | nil => intro _; rfl
  | cons p l ih =>
    intro h
    have h1 : ¬ p.1 = k := fun he => h (by rw [List.map_cons, he]; exact List.mem_cons_self k _)
    have h2 : k ∉ l.map Prod.fst := fun hm => h (List.mem_cons_of_mem _ hm)
    have hc : decide (p.1 ≠ k) = true := by simp [h1]
    show List.filter _ (p :: l) = p :: l
    rw [List.filter_cons, hc]
    simp only [if_true]
    exact congrArg (p :: ·) (ih h2)

theorem qmapErase_length {k : Str} :
    ∀ {m : QMap}, k ∈ m.map Prod.fst → (m.map Prod.fst).Nodup →
    (qmapErase k m).length + 1 = m.length := by
  intro m
  induction m with
  | nil => intro h _; cases h
  | cons p l ih =>
    intro hm hnd
    rw [List.map_cons, List.nodup_cons] at hnd
    by_cases hk : p.1 = k
    · have : qmapErase k (p :: l) = qmapErase k l := by
        simp [qmapErase, List.filter_cons, hk]
      rw [this, qmapErase_of_not_mem (hk ▸ hnd.1)]
      rfl
    · have hm2 : k ∈ l.map Prod.fst := by
        rw [List.map_cons] at hm
        rcases List.mem_cons.mp hm with h | h
        · exact absurd h.symm hk
        · exact h
      have : qmapErase k (p :: l) = p :: qmapErase k l := by
        simp [qmapErase, List.filter_cons, hk]
      rw [this, List.length_cons, List.length_cons, ← ih hm2 hnd.2]

theorem qmapErase_nodup {k : Str} {m : QMap} (h : (m.map Prod.fst).Nodup) :
    ((qmapErase k m).map Prod.fst).Nodup := by
  rw [qmapErase_keys]
  exact h.filter _

/-- The main invariant of the presentation loop, from an arbitrary
reachable state: the final map keys are the starting keys minus exactly the
keys recorded by `removed_keys` (the questions answered with the correct
letter); the `correct` counter grows by exactly the number of removed
keys; removed keys come from the traversal; map size plus correct count is
conserved; counters never decrease and grow in total by at most the length
of the traversal. -/
theorem ask_loop_spec (shuffle : Bool) (shuffles : Nat → List Char) :
    ∀ (perm : List Str) (qs : QMap) (c i s step : Nat) (keys : List Char),
      (qs.map Prod.fst).Nodup →
      (ask_loop shuffle shuffles qs c i s perm step keys).1.map Prod.fst
          = (qs.map Prod.fst).filter
              (fun x => decide (x ∉ removed_keys shuffle shuffles qs perm step keys))
      ∧ (ask_loop shuffle shuffles qs c i s perm step keys).2.1
          = c + (removed_keys shuffle shuffles qs perm step keys).length
      ∧ removed_keys shuffle shuffles qs perm step keys ⊆ perm
      ∧ (ask_loop shuffle shuffles qs c i s perm step keys).1.length
          + (ask_loop shuffle shuffles qs c i s perm step keys).2.1
          = qs.length + c
      ∧ c ≤ (ask_loop shuffle shuffles qs c i s perm step keys).2.1
      ∧ i ≤ (ask_loop shuffle shuffles qs c i s perm step keys).2.2.1
      ∧ s ≤ (ask_loop shuffle shuffles qs c i s perm step keys).2.2.2
      ∧ (ask_loop shuffle shuffles qs c i s perm step keys).2.1
          + (ask_loop shuffle shuffles qs c i s perm step keys).2.2.1
          + (ask_loop shuffle shuffles qs c i s perm step keys).2.2.2
          ≤ c + i + s + perm.length := by
  intro perm
  induction perm with
  | nil =>
    intro qs c i s step keys hnd
    simp [ask_loop, removed_keys]
  | cons k perm ih =>
    intro qs c i s step keys hnd
    simp only [ask_loop, removed_keys]
    cases hl : qmapLookup k qs with
    | none => simp
    | some q =>
      cases hv : nextValidKey keys with
      | none => simp
      | some aks =>
        obtain ⟨a, ks⟩ := aks
        dsimp only
        by_cases hq : a = 'Q'
        · simp [hq]
        · rw [if_neg hq, if_neg hq]
          by_cases hca : a = (generate_question q shuffle (shuffles step)).1
          · rw [if_pos hca, if_pos hca]
            have hmem : k ∈ qs.map Prod.fst := qmapLookup_mem hl
            have hnd2 := qmapErase_nodup (k := k) hnd
            have H := ih (qmapErase k qs) (c + 1) i s (step + 1) ks hnd2
            obtain ⟨H1, H2, H3, H4, H5, H6, H7, H8⟩ := H
            refine ⟨?_, ?_, ?_, ?_, ?_, ?_, ?_, ?_⟩
            · rw [H1, qmapErase_keys, List.filter_filter]
              refine List.filter_congr ?_
              intro x _
              by_cases hx1 : x = k
              · simp [hx1]
              · by_cases hx2 : x ∈ removed_keys shuffle shuffles (qmapErase k qs) perm
                    (step + 1) ks
                · simp [hx1, hx2]
                · simp [hx1, hx2]
            · rw [H2, List.length_cons]
              omega
            · exact List.cons_subset_cons k H3
            · have := qmapErase_length hmem hnd
              omega
            · omega
            · exact H6
            · exact H7
            · simp only [List.length_cons]
              omega
          · rw [if_neg hca, if_neg hca]
            by_cases hs : a = 'S'
            · rw [if_pos hs, if_pos hs]
              cases ks with
              | nil =>
                simp
                omega
              | cons k2 ks2 =>
                dsimp only
                have H := ih qs c i (s + 1) (step + 1) ks2 hnd
                obtain ⟨H1, H2, H3, H4, H5, H6, H7, H8⟩ := H
                refine ⟨H1, H2, H3.trans (List.subset_cons_self _ _), H4, H5, H6, ?_, ?_⟩
                · omega
                · simp only [List.length_cons]
                  omega
            · rw [if_neg hs, if_neg hs]
              cases ks with
              | nil =>
                simp
                omega
              | cons k2 ks2 =>
                dsimp only
                have H := ih qs c (i + 1) s (step + 1) ks2 hnd
                obtain ⟨H1, H2, H3, H4, H5, H6, H7, H8⟩ := H
                refine ⟨H1, H2, H3.trans (List.subset_cons_self _ _), H4, H5, ?_, H7, ?_⟩
                · omega
                · simp only [List.length_cons]
                  omega

/-- Claim C5: from any reachable state of the interactive session, the
remaining map keeps exactly the keys not answered with the correct letter
(in their original order), the correct counter counts exactly the removed
questions, removed keys come from the traversal, map size plus newly
correct answers is conserved, and the three counters grow by at most the
traversal length; pressing Q (even lowercase) as the first valid key of a
question terminates immediately with the map and counters exactly as they
were; at the whole-session level, on a large-enough screen with the
traversal a permutation of the keys, remaining plus correct equals the
initial total and correct plus incorrect plus skipped never exceeds it. -/
theorem c5_quiz_conservation :
    (∀ (shuffle : Bool) (shuffles : Nat → List Char) (perm : List Str) (qs : QMap)
        (c i s step : Nat) (keys : List Char),
      (qs.map Prod.fst).Nodup →
      (ask_loop shuffle shuffles qs c i s perm step keys).1.map Prod.fst
          = (qs.map Prod.fst).filter
              (fun x => decide (x ∉ removed_keys shuffle shuffles qs perm step keys))
        ∧ (ask_loop shuffle shuffles qs c i s perm step keys).2.1
            = c + (removed_keys shuffle shuffles qs perm step keys).length
        ∧ removed_keys shuffle shuffles qs perm step keys ⊆ perm
        ∧ (ask_loop shuffle shuffles qs c i s perm step keys).1.length
            + (ask_loop shuffle shuffles qs c i s perm step keys).2.1
            = qs.length + c)
    ∧ (∀ (shuffle : Bool) (shuffles : Nat → List Char) (qs : QMap) (c i s step : Nat)
        (k : Str) (perm : List Str) (keys ks : List Char),
      nextValidKey keys = some ('Q', ks) →
      ask_loop shuffle shuffles qs c i s (k :: perm) step keys = (qs, c, i, s))
    ∧ (∀ (rows cols : Nat) (qs : QMap) (shuffle : Bool) (perm : List Str)
        (shuffles : Nat → List Char) (keys : List Char) r,
      24 ≤ rows → 80 ≤ cols → (qs.map Prod.fst).Nodup → perm.Perm (qs.map Prod.fst) →
      ask_questions rows cols qs shuffle perm shuffles keys = Except.ok r →
      r.1.length + r.2.1 = qs.length
        ∧ r.2.1 + r.2.2.1 + r.2.2.2 ≤ qs.length) := by
  refine ⟨?_, ?_, ?_⟩
  · intro shuffle shuffles perm qs c i s step keys hnd
    have H := ask_loop_spec shuffle shuffles perm qs c i s step keys hnd
    exact ⟨H.1, H.2.1, H.2.2.1, H.2.2.2.1⟩
  · intro shuffle shuffles qs c i s step k perm keys ks hvk
    cases hl : qmapLookup k qs with
    | none => simp [ask_loop, hl]
    | some q => simp [ask_loop, hl, hvk]
  · intro rows cols qs shuffle perm shuffles keys r hr hc hnd hperm hok
    have hb : (rows < 24 || cols < 80) = false := by
      simp only [Bool.or_eq_false_iff, decide_eq_false_iff_not, Nat.not_lt]
      exact ⟨hr, hc⟩
    rw [ask_questions, hb] at hok
    simp only [Bool.false_eq_true, if_false] at hok
    injection hok with hok
    subst hok
    have H := ask_loop_spec shuffle shuffles perm qs 0 0 0 0 keys hnd
    obtain ⟨H1, H2, H3, H4, H5, H6, H7, H8⟩ := H
    constructor
    · simpa using H4
    · have := hperm.length_eq
      have hqlen : (qs.map Prod.fst).length = qs.length := List.length_map _ _
      omega

/-- Witness for claim C5: a one-question map answered correctly is removed
and counted, and a first keystroke uppercasing to Q leaves the two-question
map and the zero counters untouched. -/
theorem c5_quiz_conservation_witness :
    (ask_loop false (fun _ => []) [("K1".toList, c8Question)] 0 0 0 ["K1".toList] 0
        ['a']).1.map Prod.fst
      = ([("K1".toList, c8Question)].map Prod.fst).filter
          (fun x => decide (x ∉ removed_keys false (fun _ => [])
            [("K1".toList, c8Question)] ["K1".toList] 0 ['a']))
    ∧ ask_loop false (fun _ => []) [("K1".toList, c8Question)] 0 0 0 ["K1".toList] 0 ['q']
      = ([("K1".toList, c8Question)], 0, 0, 0) :=
  ⟨(c5_quiz_conservation.1 false (fun _ => []) ["K1".toList] [("K1".toList, c8Question)]
      0 0 0 0 ['a'] (by decide)).1,
   c5_quiz_conservation.2.1 false (fun _ => []) [("K1".toList, c8Question)] 0 0 0 0
      "K1".toList [] ['q'] [] (by rfl)⟩

/-!
Claim C6: header skipping.  The search loop of `cleanup_text` is
characterized: it ends at the last marker occurrence not at the very first
character (not the first, as the claim states).
-/

theorem findMarkerIdx_some : ∀ (s : Str) (k : Nat), findMarkerIdx s = some k →
    isMarkerStart (s.drop k) = true := by
  intro s
  induction s with
  | nil => intro k h; exact Option.noConfusion h
  | cons c r ih =>
    intro k h
    rw [findMarkerIdx] at h
    by_cases hm : isMarkerStart (c :: r) = true
    · rw [if_pos hm] at h
      injection h with h
      subst h
      exact hm
    · rw [if_neg hm] at h
      cases hr : findMarkerIdx r with
      | none => rw [hr] at h; exact Option.noConfusion h
      | some k2 =>
        rw [hr] at h
        injection h with h
        subst h
        exact ih k2 hr

theorem findMarkerIdx_none : ∀ (s : Str), findMarkerIdx s = none →
    ∀ j, isMarkerStart (s.drop j) = false := by
  intro s
  induction s with
  | nil => intro _ j; cases j <;> rfl
  | cons c r ih =>
    intro h j
    rw [findMarkerIdx] at h
    by_cases hm : isMarkerStart (c :: r) = true
    · rw [if_pos hm] at h; exact Option.noConfusion h
    · rw [if_neg hm] at h
      cases hr : findMarkerIdx r with
      | none =>
        cases j with
        | zero => simpa using hm
        | succ j2 => exact ih hr j2
      | some k2 => rw [hr] at h; exact Option.noConfusion h

theorem findMarkerIdx_none_of_all : ∀ (s : Str),
    (∀ j, isMarkerStart (s.drop j) = false) → findMarkerIdx s = none := by
  intro s
  induction s with
  | nil => intro _; rfl
  | cons c r ih =>
    intro h
    rw [findMarkerIdx, if_neg (by simpa using h 0), ih (fun j => h (j + 1))]
    rfl

theorem skipIndexFromF_spec :
    ∀ (fuel : Nat) (t : Str) (si : Nat), t.length + 1 ≤ fuel + si →
      (∀ j, isMarkerStart (t.drop (skipIndexFromF fuel t si + 1 + j)) = false)
      ∧ (skipIndexFromF fuel t si = si ∨
          (si < skipIndexFromF fuel t si
            ∧ isMarkerStart (t.drop (skipIndexFromF fuel t si)) = true)) := by
  intro fuel
  induction fuel with
  | zero =>
    intro t si hf
    constructor
    · intro j
      have hlen : t.length ≤ skipIndexFromF 0 t si + 1 + j := by
        simp only [skipIndexFromF]
        omega
      rw [List.drop_eq_nil_of_le hlen]
      rfl
    · left; rfl
  | succ fuel ih =>
    intro t si hf
    simp only [skipIndexFromF]
    cases hm : findMarkerIdx (t.drop (si + 1)) with
    | none =>
      dsimp only
      constructor
      · intro j
        have h := findMarkerIdx_none _ hm j
        rw [List.drop_drop] at h
        exact h
      · left; rfl
    | some k =>
      dsimp only
      have hmarker : isMarkerStart (t.drop (si + 1 + k)) = true := by
        have h := findMarkerIdx_some _ _ hm
        rw [List.drop_drop] at h
        exact h
      have hf2 : t.length + 1 ≤ fuel + (si + k + 1) := by omega
      obtain ⟨A, B⟩ := ih t (si + k + 1) hf2
      refine ⟨A, ?_⟩
      rcases B with B | B
      · right
        rw [B]
        exact ⟨by omega, by rw [show si + k + 1 = si + 1 + k from by omega]; exact hmarker⟩
      · right
        exact ⟨by omega, B.2⟩

theorem skipIndex_no_marker_above (t : Str) :
    ∀ j, isMarkerStart (t.drop (skipIndex t + 1 + j)) = false :=
  (skipIndexFromF_spec (t.length + 1) t 0 (by omega)).1

theorem skipIndex_max (t : Str) : ∀ j, markerAt t j = true → j ≤ skipIndex t := by
  intro j hj
  by_contra hgt
  push_neg at hgt
  have h := skipIndex_no_marker_above t (j - skipIndex t - 1)
  rw [show skipIndex t + 1 + (j - skipIndex t - 1) = j from by omega] at h
  rw [markerAt] at hj
  rw [h] at hj
  exact Bool.noConfusion hj

/-- Claim C6, amended: `cleanup_text` discards everything before the index
computed by its search loop, and that index is the position of the last
occurrence of the marker `[TGE]1A01 ` (a pool-opening question id followed
by a space, not by an opening parenthesis) in the text beyond the very
first character: every marker position is at most the index, and the index
is zero or itself a marker position. -/
theorem c6_header_skipping :
    ∀ t : Str,
      cleanup_text t = extraSub (uni (t.drop (skipIndex t)))
      ∧ (∀ j, markerAt t j = true → j ≤ skipIndex t)
      ∧ (skipIndex t = 0 ∨ markerAt t (skipIndex t) = true) := by
  intro t
  refine ⟨rfl, skipIndex_max t, ?_⟩
  have h := (skipIndexFromF_spec (t.length + 1) t 0 (by omega)).2
  rcases h with h | h
  · left; exact h
  · right; exact h.2

/-- Modelled from the spec claim of C6: the question-start marker there is
a question id immediately followed by the literal text ` (`, as in the
example `T1A01 (`. -/
def specMarkerAt : Str → Bool
  | c1 :: c2 :: c3 :: c4 :: c5 :: c6 :: c7 :: _ =>
    (c1 = 'T' || c1 = 'G' || c1 = 'E') && c2.isDigit && ('A' ≤ c3 && c3 ≤ 'Z')
      && c4.isDigit && c5.isDigit && c6 = ' ' && c7 = '('
  | _ => false

/-- Modelled from the spec claim of C6: index of the first spec-marker
occurrence in the text. -/
def findSpecMarker : Str → Option Nat
  | [] => none
  | s@(_ :: r) =>
    if specMarkerAt s then some 0
    else (findSpecMarker r).map (· + 1)

/-- Modelled from the spec claim of C6: the first spec-marker occurrence
that is not at the very first character; if none exists, the first marker
occurrence; if none at all, the start of the text. -/
def specStart (t : Str) : Nat :=
  match t with
  | [] => 0
  | _ :: r =>
    match findSpecMarker r with
    | some p => p + 1
    | none =>
      match findSpecMarker t with
      | some p => p
      | none => 0

/-- Modelled from the spec claim of C6: normalization that discards
everything before the first non-initial marker occurrence, then applies the
same transliteration and hyphen repair. -/
def specNormalize (t : Str) : Str := extraSub (uni (t.drop (specStart t)))

/-- A text with three marker occurrences. -/
def c6Text : Str := "T1A01 (A) one T1A01 (A) two T1A01 (A) three".toList

/-- Claim C6, counterexample: on a text with three marker occurrences the
claimed normalization keeps everything from the second occurrence (index
14), while `cleanup_text` discards everything before the third and last
occurrence (index 28), so the two outputs differ. -/
theorem c6_counterexample :
    specStart c6Text = 14
      ∧ skipIndex c6Text = 28
      ∧ specNormalize c6Text ≠ cleanup_text c6Text := by
  refine ⟨rfl, rfl, by decide⟩

/-- Witness for claim C6: on the three-marker text, the marker occurrence
at index 14 is bounded by the loop result. -/
theorem c6_header_skipping_witness : 14 ≤ skipIndex c6Text :=
  (c6_header_skipping c6Text).2.1 14 (by rfl)

/-!
Claim C7: normalization idempotence.  The hyphen repair is a single
left-to-right pass, so chained hyphen breaks make `cleanup_text`
non-idempotent; idempotence holds once the repair has reached a fixed
point, which requires knowing that neither the transliteration nor the
repair can create a new header marker beyond the first character.
-/

/-- No `FIRST_QUESTION_RE` marker occurs anywhere in the text. -/
def noMarkerB : Str → Bool
  | [] => true
  | s@(_ :: r) => !isMarkerStart s && noMarkerB r

/-- No `FIRST_QUESTION_RE` marker occurs at any position beyond the first
character of the text. -/
def noMarkerTailB : Str → Bool
  | [] => true
  | _ :: r => noMarkerB r

theorem noMarkerB_iff : ∀ (s : Str), noMarkerB s = true ↔
    ∀ j, isMarkerStart (s.drop j) = false := by
  intro s
  induction s with
  | nil =>
    constructor
    · intro _ j
      rw [List.drop_nil]
      rfl
    · intro _; rfl
  | cons c r ih =>
    constructor
    · intro h j
      rw [noMarkerB, Bool.and_eq_true, Bool.not_eq_true'] at h
      cases j with
      | zero => exact h.1
      | succ j2 => exact (ih.mp h.2) j2
    · intro h
      rw [noMarkerB, Bool.and_eq_true, Bool.not_eq_true']
      exact ⟨h 0, ih.mpr (fun j => h (j + 1))⟩

theorem noMarkerB_append : ∀ (x y : Str), noMarkerB (x ++ y) = true →
    noMarkerB y = true := by
  intro x
  induction x with
  | nil => intro y h; exact h
  | cons c r ih =>
    intro y h
    rw [List.cons_append, noMarkerB, Bool.and_eq_true] at h
    exact ih y h.2

theorem isMarkerStart_iff (c : Char) (w : Str) :
    isMarkerStart (c :: w) = true ↔
      (((c = 'T' ∨ c = 'G') ∨ c = 'E')
        ∧ startsWithL ['1', 'A', '0', '1', ' '] w = true) := by
  match w with
  | [] => simp [isMarkerStart, startsWithL]
  | [c1] => simp [isMarkerStart, startsWithL]
  | [c1, c2] => simp [isMarkerStart, startsWithL]
  | [c1, c2, c3] => simp [isMarkerStart, startsWithL]
  | [c1, c2, c3, c4] => simp [isMarkerStart, startsWithL]
  | c1 :: c2 :: c3 :: c4 :: c5 :: r =>
    simp only [isMarkerStart, startsWithL, Bool.and_eq_true, Bool.or_eq_true,
      Bool.and_true, decide_eq_true_eq]
    constructor
    · rintro ⟨⟨⟨⟨⟨h0, h1⟩, h2⟩, h3⟩, h4⟩, h5⟩
      exact ⟨h0, h1.symm, h2.symm, h3.symm, h4.symm, h5.symm⟩
    · rintro ⟨h0, h1, h2, h3, h4, h5⟩
      exact ⟨⟨⟨⟨⟨h0, h1.symm⟩, h2.symm⟩, h3.symm⟩, h4.symm⟩, h5.symm⟩

theorem uniChar_marker_char {c m : Char}
    (hm : m ∈ (['T', 'G', 'E', '1', 'A', '0', ' '] : List Char))
    (h : uniChar c = m) : c = m := by
  rw [uniChar] at h
  split_ifs at h with h1
  · exact h
  all_goals (exfalso; fin_cases hm <;> exact absurd h (by decide))

theorem uniChar_val_lt (c : Char) : (uniChar c).val < 128 := by
  rw [uniChar]
  split_ifs with h
  · exact h
  all_goals decide

theorem uniChar_idem (c : Char) : uniChar (uniChar c) = uniChar c := by
  have h := uniChar_val_lt c
  nth_rewrite 1 [uniChar]
  rw [if_pos h]

theorem uniChar_decide_eq {m : Char}
    (hm : m ∈ (['T', 'G', 'E', '1', 'A', '0', ' '] : List Char)) (c : Char) :
    decide (uniChar c = m) = decide (c = m) := by
  rw [decide_eq_decide]
  refine ⟨uniChar_marker_char hm, fun hc => ?_⟩
  subst hc
  fin_cases hm <;> decide

theorem isMarkerStart_uni : ∀ z : Str, isMarkerStart (uni z) = isMarkerStart z := by
  intro z
  match z with
  | [] => rfl
  | [c0] => rfl
  | [c0, c1] => rfl
  | [c0, c1, c2] => rfl
  | [c0, c1, c2, c3] => rfl
  | [c0, c1, c2, c3, c4] => rfl
  | c0 :: c1 :: c2 :: c3 :: c4 :: c5 :: rest =>
    show isMarkerStart (uniChar c0 :: uniChar c1 :: uniChar c2 :: uniChar c3
        :: uniChar c4 :: uniChar c5 :: uni rest) = _
    simp only [isMarkerStart]
    rw [uniChar_decide_eq (by decide) c0, uniChar_decide_eq (by decide) c0,
      uniChar_decide_eq (by decide) c0, uniChar_decide_eq (by decide) c1,
      uniChar_decide_eq (by decide) c2, uniChar_decide_eq (by decide) c3,
      uniChar_decide_eq (by decide) c4, uniChar_decide_eq (by decide) c5]

theorem noMarkerB_uni : ∀ s : Str, noMarkerB (uni s) = noMarkerB s := by
  intro s
  induction s with
  | nil => rfl
  | cons c r ih =>
    show noMarkerB (uniChar c :: uni r) = _
    rw [noMarkerB, noMarkerB]
    rw [show (uniChar c :: uni r) = uni (c :: r) from rfl, isMarkerStart_uni, ih]

theorem extraSubF_cons_cases (fuel : Nat) (c : Char) (rest : Str) :
    extraSubF (fuel + 1) (c :: rest) = c :: extraSubF fuel rest
    ∨ ∃ ws l r4, rest = '-' :: (ws ++ l :: r4) ∧ ws ≠ []
        ∧ extraSubF (fuel + 1) (c :: rest) = c :: '-' :: l :: extraSubF fuel r4 := by
  by_cases ha : isAlnumI c = true
  · cases rest with
    | nil => left; simp [extraSubF, ha]
    | cons d rest2 =>
      by_cases hd : d = '-'
      · subst hd
        by_cases hw : (rest2.takeWhile isSpaceChar).isEmpty = true
        · left; simp [extraSubF, ha, hw]
        · cases hr3 : rest2.dropWhile isSpaceChar with
          | nil => left; simp [extraSubF, ha, hw, hr3]
          | cons l r4 =>
            by_cases hl : isLetterI l = true
            · right
              refine ⟨rest2.takeWhile isSpaceChar, l, r4, ?_, ?_, ?_⟩
              · rw [← hr3, List.takeWhile_append_dropWhile]
              · intro he
                rw [he] at hw
                exact hw rfl
              · simp [extraSubF, ha, hw, hr3, hl]
            · left; simp [extraSubF, ha, hw, hr3, hl]
      · left; simp [extraSubF, ha, hd]
  · left; simp [extraSubF, ha]

theorem extraSubF_pre_reflect : ∀ (fuel : Nat) (z p : Str), '-' ∉ p →
    startsWithL p (extraSubF fuel z) = true → startsWithL p z = true := by
  intro fuel
  induction fuel with
  | zero => intro z p _ h; exact h
  | succ fuel ih =>
    intro z p hp h
    cases z with
    | nil => exact h
    | cons c rest =>
      rcases extraSubF_cons_cases fuel c rest with hc | ⟨ws, l, r4, hrest, _, hc⟩
      · rw [hc] at h
        cases p with
        | nil => rfl
        | cons a p2 =>
          rw [startsWithL, Bool.and_eq_true] at h ⊢
          refine ⟨h.1, ?_⟩
          exact ih rest p2 (fun hm => hp (List.mem_cons_of_mem a hm)) h.2
      · rw [hc] at h
        cases p with
        | nil => rfl
        | cons a p2 =>
          cases p2 with
          | nil =>
            rw [startsWithL, Bool.and_eq_true] at h ⊢
            exact ⟨h.1, rfl⟩
          | cons b p3 =>
            exfalso
            rw [startsWithL, Bool.and_eq_true] at h
            have h2 := h.2
            rw [startsWithL, Bool.and_eq_true] at h2
            have h3 : b = '-' := by simpa using h2.1
            exact hp (h3 ▸ List.mem_cons_of_mem a (List.mem_cons_self b p3))

theorem extraSubF_noMarker : ∀ (fuel : Nat) (z : Str), noMarkerB z = true →
    noMarkerB (extraSubF fuel z) = true := by
  intro fuel
  induction fuel with
  | zero => intro z h; exact h
  | succ fuel ih =>
    intro z h
    cases z with
    | nil => exact h
    | cons c rest =>
      rw [noMarkerB, Bool.and_eq_true, Bool.not_eq_true'] at h
      obtain ⟨hn0, hnr⟩ := h
      rcases extraSubF_cons_cases fuel c rest with hc | ⟨ws, l, r4, hrest, _, hc⟩
      · rw [hc, noMarkerB, Bool.and_eq_true, Bool.not_eq_true']
        refine ⟨?_, ih rest hnr⟩
        cases hmk : isMarkerStart (c :: extraSubF fuel rest) with
        | false => rfl
        | true =>
          obtain ⟨hTGE, hsw⟩ := (isMarkerStart_iff c _).mp hmk
          have hsw2 := extraSubF_pre_reflect fuel rest _ (by decide) hsw
          have : isMarkerStart (c :: rest) = true :=
            (isMarkerStart_iff c rest).mpr ⟨hTGE, hsw2⟩
          rw [this] at hn0
          exact Bool.noConfusion hn0
      · subst hrest
        have hn4 : noMarkerB (l :: r4) = true :=
          noMarkerB_append ws (l :: r4)
            (by rw [noMarkerB, Bool.and_eq_true] at hnr; exact hnr.2)
        rw [noMarkerB, Bool.and_eq_true] at hn4
        obtain ⟨hnl, hnr4⟩ := hn4
        rw [Bool.not_eq_true'] at hnl
        rw [hc]
        rw [noMarkerB, Bool.and_eq_true, Bool.not_eq_true']
        constructor
        · cases hmk : isMarkerStart (c :: '-' :: l :: extraSubF fuel r4) with
          | false => rfl
          | true =>
            obtain ⟨_, hsw⟩ := (isMarkerStart_iff c _).mp hmk
            rw [startsWithL, Bool.and_eq_true] at hsw
            have : ('1' : Char) = '-' := by simpa using hsw.1
            exact absurd this (by decide)
        rw [noMarkerB, Bool.and_eq_true, Bool.not_eq_true']
        constructor
        · cases hmk : isMarkerStart ('-' :: l :: extraSubF fuel r4) with
          | false => rfl
          | true =>
            obtain ⟨hTGE, _⟩ := (isMarkerStart_iff '-' _).mp hmk
            rcases hTGE with (h | h) | h <;> exact absurd h (by decide)
        rw [noMarkerB, Bool.and_eq_true, Bool.not_eq_true']
        constructor
        · cases hmk : isMarkerStart (l :: extraSubF fuel r4) with
          | false => rfl
          | true =>
            obtain ⟨hTGE, hsw⟩ := (isMarkerStart_iff l _).mp hmk
            have hsw2 := extraSubF_pre_reflect fuel r4 _ (by decide) hsw
            have : isMarkerStart (l :: r4) = true :=
              (isMarkerStart_iff l r4).mpr ⟨hTGE, hsw2⟩
            rw [this] at hnl
            exact Bool.noConfusion hnl
        exact ih r4 hnr4

theorem extraSubF_noMarkerTail (fuel : Nat) (z : Str)
    (h : noMarkerTailB z = true) : noMarkerTailB (extraSubF fuel z) = true := by
  cases fuel with
  | zero => exact h
  | succ fuel =>
    cases z with
    | nil => exact h
    | cons c rest =>
      rw [noMarkerTailB] at h
      rcases extraSubF_cons_cases fuel c rest with hc | ⟨ws, l, r4, hrest, _, hc⟩
      · rw [hc, noMarkerTailB]
        exact extraSubF_noMarker fuel rest h
      · subst hrest
        have hn4 : noMarkerB (l :: r4) = true :=
          noMarkerB_append ws (l :: r4)
            (by rw [noMarkerB, Bool.and_eq_true] at h; exact h.2)
        rw [noMarkerB, Bool.and_eq_true] at hn4
        obtain ⟨hnl, hnr4⟩ := hn4
        rw [Bool.not_eq_true'] at hnl
        rw [hc, noMarkerTailB]
        rw [noMarkerB, Bool.and_eq_true, Bool.not_eq_true']
        constructor
        · cases hmk : isMarkerStart ('-' :: l :: extraSubF fuel r4) with
          | false => rfl
          | true =>
            obtain ⟨hTGE, _⟩ := (isMarkerStart_iff '-' _).mp hmk
            rcases hTGE with (h2 | h2) | h2 <;> exact absurd h2 (by decide)
        rw [noMarkerB, Bool.and_eq_true, Bool.not_eq_true']
        constructor
        · cases hmk : isMarkerStart (l :: extraSubF fuel r4) with
          | false => rfl
          | true =>
            obtain ⟨hTGE, hsw⟩ := (isMarkerStart_iff l _).mp hmk
            have hsw2 := extraSubF_pre_reflect fuel r4 _ (by decide) hsw
            have : isMarkerStart (l :: r4) = true :=
              (isMarkerStart_iff l r4).mpr ⟨hTGE, hsw2⟩
            rw [this] at hnl
            exact Bool.noConfusion hnl
        exact extraSubF_noMarker fuel r4 hnr4

theorem extraSubF_subset : ∀ (fuel : Nat) (z : Str) (x : Char),
    x ∈ extraSubF fuel z → x ∈ z := by
  intro fuel
  induction fuel with
  | zero => intro z x h; exact h
  | succ fuel ih =>
    intro z x h
    cases z with
    | nil => exact h
    | cons c rest =>
      rcases extraSubF_cons_cases fuel c rest with hc | ⟨ws, l, r4, hrest, _, hc⟩
      · rw [hc] at h
        rcases List.mem_cons.mp h with h | h
        · exact h ▸ List.mem_cons_self c rest
        · exact List.mem_cons_of_mem c (ih rest x h)
      · subst hrest
        rw [hc] at h
        rcases List.mem_cons.mp h with h | h
        · exact h ▸ List.mem_cons_self _ _
        rcases List.mem_cons.mp h with h | h
        · exact h ▸ List.mem_cons_of_mem _ (List.mem_cons_self _ _)
        rcases List.mem_cons.mp h with h | h
        · refine List.mem_cons_of_mem _ ?_
          rw [List.mem_cons]
          right
          exact List.mem_append_right ws (h ▸ List.mem_cons_self l r4)
        · refine List.mem_cons_of_mem _ ?_
          rw [List.mem_cons]
          right
          exact List.mem_append_right ws (List.mem_cons_of_mem l (ih r4 x h))

theorem map_id_of_mem : ∀ (l : Str) (f : Char → Char),
    (∀ x ∈ l, f x = x) → l.map f = l := by
  intro l
  induction l with
  | nil => intro f _; rfl
  | cons c r ih =>
    intro f h
    rw [List.map_cons, h c (List.mem_cons_self c r),
      ih f (fun x hx => h x (List.mem_cons_of_mem c hx))]

/-- A text already past its header but with a chained hyphen break. -/
def c7Text : Str := "T1A01 a- b- c".toList

/-- Claim C7, counterexample: the text `T1A01 a- b- c` is already past its
header (the marker starts it), yet normalizing twice differs from
normalizing once: the single left-to-right pass of the hyphen repair turns
`a- b- c` into `a-b- c`, consuming the letter `b` as part of the first
match, and only a second pass reaches `a-b-c`. -/
theorem c7_counterexample :
    markerAt c7Text 0 = true
      ∧ cleanup_text (cleanup_text c7Text) ≠ cleanup_text c7Text := by
  exact ⟨rfl, by decide⟩

/-- Claim C7, amended: for a text already past its header, normalization is
idempotent provided one application of the hyphen repair leaves its own
output fixed (the repair is a single pass, so chained hyphen breaks need a
second pass and break idempotence otherwise). -/
theorem c7_idempotence :
    ∀ t : Str, markerAt t 0 = true →
      extraSub (cleanup_text t) = cleanup_text t →
      cleanup_text (cleanup_text t) = cleanup_text t := by
  intro t _ hfix
  have hs0 : noMarkerTailB (t.drop (skipIndex t)) = true := by
    cases hsd : t.drop (skipIndex t) with
    | nil => rfl
    | cons c r =>
      rw [noMarkerTailB]
      rw [noMarkerB_iff]
      intro j
      have h := skipIndex_no_marker_above t j
      have e : (t.drop (skipIndex t)).drop (j + 1) = t.drop (skipIndex t + 1 + j) := by
        rw [List.drop_drop]
        congr 1
        omega
      rw [hsd] at e
      rw [List.drop_succ_cons] at e
      rw [← e] at h
      exact h
  have hu : noMarkerTailB (uni (t.drop (skipIndex t))) = true := by
    cases hsd : t.drop (skipIndex t) with
    | nil => rfl
    | cons c r =>
      rw [hsd] at hs0
      rw [noMarkerTailB] at hs0
      show noMarkerTailB (uniChar c :: uni r) = true
      rw [noMarkerTailB, noMarkerB_uni]
      exact hs0
  have h1 : noMarkerTailB (cleanup_text t) = true := by
    rw [cleanup_text]
    exact extraSubF_noMarkerTail _ _ hu
  have h2 : skipIndex (cleanup_text t) = 0 := by
    have hn : findMarkerIdx ((cleanup_text t).drop 1) = none := by
      apply findMarkerIdx_none_of_all
      intro j
      cases hc2 : cleanup_text t with
      | nil => rw [List.drop_nil, List.drop_nil]; rfl
      | cons c r =>
        rw [hc2] at h1
        rw [noMarkerTailB] at h1
        rw [List.drop_succ_cons]
        exact (noMarkerB_iff r).mp h1 j
    show skipIndexFromF ((cleanup_text t).length + 1) (cleanup_text t) 0 = 0
    rw [skipIndexFromF]
    rw [Nat.zero_add, hn]
  have h3 : uni (cleanup_text t) = cleanup_text t := by
    apply map_id_of_mem
    intro x hx
    rw [cleanup_text] at hx
    have hx2 : x ∈ uni (t.drop (skipIndex t)) := extraSubF_subset _ _ x hx
    obtain ⟨y, _, hy⟩ := List.mem_map.mp hx2
    rw [← hy]
    exact uniChar_idem y
  calc cleanup_text (cleanup_text t)
      = extraSub (uni ((cleanup_text t).drop (skipIndex (cleanup_text t)))) := rfl
    _ = extraSub (uni (cleanup_text t)) := by rw [h2, List.drop_zero]
    _ = extraSub (cleanup_text t) := by rw [h3]
    _ = cleanup_text t := hfix

/-- Witness for claim C7: the reformatted example text is past its header
and contains no hyphen break, so normalizing it twice equals normalizing it
once. -/
theorem c7_idempotence_witness :
    cleanup_text (cleanup_text c8FixedText) = cleanup_text c8FixedText :=
  c7_idempotence c8FixedText (by rfl) (by rfl)

/-!
Claim C1: the round trip.  Support lemmas: whitespace structure of
collapsed fields and exact-match lemmas for the matcher slices on the
rendered text.
-/

/-- The last character of the text is not whitespace (vacuously true for
the empty text). -/
def lastNonWs : Str → Bool
  | [] => true
  | [c] => !isSpaceChar c
  | _ :: c :: r => lastNonWs (c :: r)

theorem decide_comm_char (a b : Char) : decide (a = b) = decide (b = a) := by
  rw [decide_eq_decide]
  exact eq_comm

theorem lastNonWs_cons (c : Char) {v : Str} (h : v ≠ []) :
    lastNonWs (c :: v) = lastNonWs v := by
  cases v with
  | nil => exact absurd rfl h
  | cons d r => rfl

theorem lastNonWs_mem : ∀ (v : Str), v ≠ [] → lastNonWs v = true →
    ∃ x ∈ v, isSpaceChar x = false := by
  intro v
  induction v with
  | nil => intro h _; exact absurd rfl h
  | cons c v' ih =>
    intro _ hl
    cases v' with
    | nil =>
      refine ⟨c, List.mem_cons_self c [], ?_⟩
      rw [lastNonWs] at hl
      exact (Bool.not_eq_true' _).mp hl
    | cons d v'' =>
      rw [lastNonWs_cons c (List.cons_ne_nil d v'')] at hl
      obtain ⟨x, hx, hxw⟩ := ih (List.cons_ne_nil d v'') hl
      exact ⟨x, List.mem_cons_of_mem c hx, hxw⟩

theorem lastNonWs_of_all : ∀ (w : Str), (∀ c ∈ w, isSpaceChar c = false) →
    lastNonWs w = true := by
  intro w
  induction w with
  | nil => intro _; rfl
  | cons c w' ih =>
    intro h
    cases w' with
    | nil =>
      rw [lastNonWs, h c (List.mem_cons_self c []), Bool.not_false]
    | cons d w'' =>
      rw [lastNonWs_cons c (List.cons_ne_nil d w'')]
      exact ih (fun x hx => h x (List.mem_cons_of_mem c hx))

theorem lastNonWs_append : ∀ (a b : Str), b ≠ [] →
    lastNonWs (a ++ b) = lastNonWs b := by
  intro a
  induction a with
  | nil => intro b _; rfl
  | cons c a' ih =>
    intro b hb
    rw [List.cons_append]
    have hne : a' ++ b ≠ [] := by
      cases a' with
      | nil => simpa using hb
      | cons d a2 => simp
    rw [lastNonWs_cons c hne]
    exact ih b hb

theorem wordsAux_spec : ∀ (s cur : Str), (∀ c ∈ cur, isSpaceChar c = false) →
    ∀ w ∈ wordsAux s cur, w ≠ [] ∧ ∀ c ∈ w, isSpaceChar c = false := by
  intro s
  induction s with
  | nil =>
    intro cur hcur w hw
    rw [wordsAux] at hw
    by_cases hc : cur.isEmpty = true
    · rw [if_pos hc] at hw
      cases hw
    · rw [if_neg hc] at hw
      rcases List.mem_cons.mp hw with rfl | h
      · constructor
        · intro he
          rw [← List.reverse_reverse cur] at hc
          rw [he] at hc
          exact hc rfl
        · intro c hc2
          exact hcur c (List.mem_reverse.mp hc2)
      · cases h
  | cons c s' ih =>
    intro cur hcur w hw
    rw [wordsAux] at hw
    by_cases hws : isSpaceChar c = true
    · rw [if_pos hws] at hw
      by_cases hc : cur.isEmpty = true
      · rw [if_pos hc] at hw
        exact ih [] (by intro x hx; cases hx) w hw
      · rw [if_neg hc] at hw
        rcases List.mem_cons.mp hw with rfl | h
        · constructor
          · intro he
            rw [← List.reverse_reverse cur] at hc
            rw [he] at hc
            exact hc rfl
          · intro x hx2
            exact hcur x (List.mem_reverse.mp hx2)
        · exact ih [] (by intro x hx; cases hx) w h
    · rw [if_neg hws] at hw
      refine ih (c :: cur) ?_ w hw
      intro x hx
      rcases List.mem_cons.mp hx with rfl | hx2
      · exact (Bool.not_eq_true _).mp hws
      · exact hcur x hx2

theorem joinSp_ne_nil : ∀ (w : Str) (rest : List Str), w ≠ [] →
    joinSp (w :: rest) ≠ [] := by
  intro w rest hw
  cases rest with
  | nil => exact hw
  | cons w2 rest2 =>
    show w ++ ' ' :: joinSp (w2 :: rest2) ≠ []
    cases w with
    | nil => exact absurd rfl hw
    | cons c w' => simp

theorem joinSp_lastNonWs : ∀ (l : List Str),
    (∀ w ∈ l, w ≠ [] ∧ ∀ c ∈ w, isSpaceChar c = false) →
    lastNonWs (joinSp l) = true := by
  intro l
  induction l with
  | nil => intro _; rfl
  | cons w l' ih =>
    intro h
    cases l' with
    | nil => exact lastNonWs_of_all w (h w (List.mem_cons_self w [])).2
    | cons w2 rest =>
      show lastNonWs (w ++ ' ' :: joinSp (w2 :: rest)) = true
      have h2 : ∀ x ∈ w2 :: rest, x ≠ [] ∧ ∀ c ∈ x, isSpaceChar c = false :=
        fun x hx => h x (List.mem_cons_of_mem w hx)
      have hne : joinSp (w2 :: rest) ≠ [] :=
        joinSp_ne_nil w2 rest (h2 w2 (List.mem_cons_self w2 rest)).1
      have hne2 : (' ' :: joinSp (w2 :: rest)) ≠ [] := List.cons_ne_nil _ _
      rw [lastNonWs_append w _ hne2, lastNonWs_cons ' ' hne]
      exact ih h2

theorem joinSp_head_nonws : ∀ (l : List Str),
    (∀ w ∈ l, w ≠ [] ∧ ∀ c ∈ w, isSpaceChar c = false) →
    ∀ (c : Char) (r : Str), joinSp l = c :: r → isSpaceChar c = false := by
  intro l
  induction l with
  | nil => intro _ c r h; exact absurd h (by simp [joinSp])
  | cons w l' ih =>
    intro hspec c r hj
    obtain ⟨hw, hall⟩ := hspec w (List.mem_cons_self w l')
    cases l' with
    | nil =>
      have hj2 : w = c :: r := hj
      subst hj2
      exact hall c (List.mem_cons_self c r)
    | cons w2 rest =>
      have hj2 : w ++ ' ' :: joinSp (w2 :: rest) = c :: r := hj
      cases w with
      | nil => exact absurd rfl hw
      | cons c0 w' =>
        rw [List.cons_append] at hj2
        injection hj2 with h1 _
        exact h1 ▸ hall c0 (List.mem_cons_self c0 w')

theorem collapse_last {s : Str} (hc : collapse s = s) : lastNonWs s = true := by
  rw [← hc, collapse]
  exact joinSp_lastNonWs _ (fun w hw => wordsAux_spec s [] (by intro x hx; cases hx) w hw)

theorem collapse_head {s : Str} (hc : collapse s = s) {c : Char} {r : Str}
    (he : s = c :: r) : isSpaceChar c = false := by
  have := joinSp_head_nonws (splitWs s)
    (fun w hw => wordsAux_spec s [] (by intro x hx; cases hx) w hw) c r
  apply this
  rw [← collapse]
  rw [hc]
  exact he

theorem collapse_cons_ws {c : Char} (hws : isSpaceChar c = true) (s : Str) :
    collapse (c :: s) = collapse s := by
  rw [collapse, collapse, splitWs, splitWs, wordsAux, if_pos hws]
  rfl

theorem collapse_not_nil {s : Str} (hc : collapse s = s) (hne : s ≠ []) :
    (collapse s).isEmpty = false := by
  rw [hc]
  cases s with
  | nil => exact absurd rfl hne
  | cons c r => rfl

/-!
Exact-match lemmas for the slices, on text of the rendered shape.
-/

theorem lazySpacesThen_of_next {α : Type} {next : Str → Option α} {s : Str} {a : α}
    (h : next s = some a) : lazySpacesThen next s = some a := by
  cases s with
  | nil => exact h
  | cons c r => simp only [lazySpacesThen, h]

theorem lazyWsThen_of_next {α : Type} {next : Str → Option α} {s : Str} {a : α}
    (h : next s = some a) : lazyWsThen next s = some a := by
  cases s with
  | nil => exact h
  | cons c r => simp only [lazyWsThen, h]

theorem tildeEnd_none : ∀ (v w : Str), '~' ∉ v →
    (∃ x ∈ v, isSpaceChar x = false) → tildeEnd (v ++ w) = none := by
  intro v
  induction v with
  | nil => rintro w _ ⟨x, hx, _⟩; cases hx
  | cons c v' ih =>
    rintro w hnt hex
    rw [List.cons_append, tildeEnd]
    have hc : ¬ c = '~' := fun he => hnt (he ▸ List.mem_cons_self c v')
    rw [if_neg hc]
    cases hws : isSpaceChar c with
    | false => rw [if_neg (by decide)]
    | true =>
      rw [if_pos rfl]
      apply ih w (fun hm => hnt (List.mem_cons_of_mem c hm))
      obtain ⟨x, hx, hxw⟩ := hex
      rcases List.mem_cons.mp hx with rfl | hx2
      · rw [hws] at hxw
        exact absurd hxw (by decide)
      · exact ⟨x, hx2, hxw⟩

theorem wsMarkerThen_none {α : Type} {m1 m2 : Char} (next : Str → Option α)
    (hm1 : isSpaceChar m1 = false) (hm2 : m2 ≠ '\n') :
    ∀ (v rest2 : Str), occursIn [m1, m2] v = false →
      (∃ x ∈ v, isSpaceChar x = false) →
      wsMarkerThen m1 m2 next (v ++ '\n' :: m1 :: m2 :: rest2) = none := by
  intro v
  induction v with
  | nil => rintro rest2 _ ⟨x, hx, _⟩; cases hx
  | cons c v' ih =>
    rintro rest2 hocc hex
    rw [occursIn, Bool.or_eq_false_iff] at hocc
    obtain ⟨hsw, hocc2⟩ := hocc
    cases v' with
    | nil =>
      obtain ⟨x, hx, hxw⟩ := hex
      have hxc : x = c := by
        rcases List.mem_cons.mp hx with h | h
        · exact h
        · cases h
      subst hxc
      rw [List.cons_append, List.nil_append, wsMarkerThen]
      have hd2 : decide ('\n' = m2) = false := decide_eq_false (fun h => hm2 h.symm)
      rw [hd2, Bool.and_false]
      rw [if_neg (by decide)]
      simp [hxw]
    | cons d v'' =>
      rw [List.cons_append, List.cons_append, wsMarkerThen]
      rw [startsWithL, Bool.and_eq_false_iff] at hsw
      have hmk : (decide (c = m1) && decide (d = m2)) = false := by
        rcases hsw with h | h
        · rw [decide_comm_char c m1, h, Bool.false_and]
        · rw [startsWithL, Bool.and_eq_false_iff] at h
          rcases h with h | h
          · rw [decide_comm_char d m2, h, Bool.and_false]
          · rw [startsWithL] at h
            exact absurd h (by simp)
      rw [hmk]
      rw [if_neg (by decide)]
      simp only []
      cases hws : isSpaceChar c with
      | false => simp
      | true =>
        rw [if_pos rfl]
        apply ih rest2 hocc2
        obtain ⟨x, hx, hxw⟩ := hex
        rcases List.mem_cons.mp hx with rfl | hx2
        · rw [hws] at hxw
          exact absurd hxw (by decide)
        · exact ⟨x, hx2, hxw⟩

theorem chDGo_run : ∀ (v acc : Str), '~' ∉ v → (v ≠ [] → lastNonWs v = true) →
    chDGo acc (v ++ ['\n', '~', '~']) = some (acc.reverse ++ v, []) := by
  intro v
  induction v with
  | nil =>
    intro acc _ _
    rw [List.nil_append]
    have hte : tildeEnd ['\n', '~', '~'] = some [] := rfl
    simp [chDGo, hte]
  | cons c v' ih =>
    intro acc hnt hl
    have hlast : lastNonWs (c :: v') = true := hl (List.cons_ne_nil c v')
    rw [List.cons_append, chDGo]
    have hte : tildeEnd ((c :: v') ++ ['\n', '~', '~']) = none :=
      tildeEnd_none (c :: v') ['\n', '~', '~'] hnt
        (lastNonWs_mem (c :: v') (List.cons_ne_nil c v') hlast)
    rw [List.cons_append] at hte
    rw [hte]
    have hc : ¬ c = '~' := fun he => hnt (he ▸ List.mem_cons_self c v')
    rw [if_neg hc]
    cases hv : v' with
    | nil =>
      rw [List.nil_append]
      show some (((c :: acc).reverse : Str), ([] : Str)) = _
      simp
    | cons d v'' =>
      rw [← hv]
      have := ih (c :: acc) (fun hm => hnt (List.mem_cons_of_mem c hm))
        (fun hne => by rw [← lastNonWs_cons c hne]; exact hlast)
      rw [this]
      simp

theorem choiceDSeg_exact (c0 : Char) (v : Str) (hc0 : c0 ≠ '~')
    (hnt : '~' ∉ v) (hl : v ≠ [] → lastNonWs v = true) :
    choiceDSeg ((c0 :: v) ++ ['\n', '~', '~']) = some (c0 :: v, []) := by
  rw [List.cons_append, choiceDSeg, if_neg hc0, chDGo_run v [c0] hnt hl]
  rfl

theorem segGo_run {α : Type} {m1 m2 : Char} {next : Str → Option α} {val : α}
    (hm1 : isSpaceChar m1 = false) (hm2 : m2 ≠ '\n') :
    ∀ (v acc rest2 : Str), '~' ∉ v → occursIn [m1, m2] v = false →
      (v ≠ [] → lastNonWs v = true) → next rest2 = some val →
      segGo m1 m2 next acc (v ++ '\n' :: m1 :: m2 :: rest2)
        = some (acc.reverse ++ v, val) := by
  intro v
  induction v with
  | nil =>
    intro acc rest2 _ _ _ hnext
    rw [List.nil_append]
    have hd1 : ('\n' = m1) = False := by
      apply eq_false
      intro h
      rw [← h] at hm1
      exact absurd hm1 (by decide)
    have hw1 : wsMarkerThen m1 m2 next ('\n' :: m1 :: m2 :: rest2) = some val := by
      simp [wsMarkerThen, hd1, lazySpacesThen_of_next hnext,
        show isSpaceChar '\n' = true from by decide]
    simp [segGo, hw1]
  | cons c v' ih =>
    intro acc rest2 hnt hocc hl hnext
    have hlast : lastNonWs (c :: v') = true := hl (List.cons_ne_nil c v')
    rw [List.cons_append, segGo]
    have hwn : wsMarkerThen m1 m2 next ((c :: v') ++ '\n' :: m1 :: m2 :: rest2) = none :=
      wsMarkerThen_none next hm1 hm2 (c :: v') rest2 hocc
        (lastNonWs_mem (c :: v') (List.cons_ne_nil c v') hlast)
    rw [List.cons_append] at hwn
    rw [hwn]
    have hc : ¬ c = '~' := fun he => hnt (he ▸ List.mem_cons_self c v')
    rw [if_neg hc]
    have hocc2 : occursIn [m1, m2] v' = false := by
      rw [occursIn, Bool.or_eq_false_iff] at hocc
      exact hocc.2
    have := ih (c :: acc) rest2 (fun hm => hnt (List.mem_cons_of_mem c hm)) hocc2
      (fun hne => by rw [← lastNonWs_cons c hne]; exact hlast) hnext
    rw [this]
    simp

theorem segment_exact {α : Type} {m1 m2 : Char} {next : Str → Option α} {val : α}
    (hm1 : isSpaceChar m1 = false) (hm2 : m2 ≠ '\n')
    (c0 : Char) (v rest2 : Str) (hc0 : c0 ≠ '~') (hnt : '~' ∉ v)
    (hocc : occursIn [m1, m2] v = false) (hl : v ≠ [] → lastNonWs v = true)
    (hnext : next rest2 = some val) :
    segment m1 m2 next ((c0 :: v) ++ '\n' :: m1 :: m2 :: rest2)
      = some (c0 :: v, val) := by
  rw [List.cons_append, segment, if_neg hc0,
    segGo_run hm1 hm2 v [c0] rest2 hnt hocc hl hnext]
  rfl

theorem findMatchesF_nil : ∀ fuel : Nat, findMatchesF fuel [] = [] := by
  intro fuel
  cases fuel with
  | zero => rfl
  | succ f => rfl

theorem findMatchesF_succ (fuel : Nat) (s : Str) :
    findMatchesF (fuel + 1) s = match qaMatchAt s with
      | some m => m :: findMatchesF fuel m.rest
      | none => match s with | [] => [] | _ :: r => findMatchesF fuel r := rfl

/-- Invariants of a well-formed field: whitespace-collapsed (as every
stored field is), nonempty, and free of tildes. -/
def WFfield (s : Str) : Prop := collapse s = s ∧ s ≠ [] ∧ '~' ∉ s

/-- Claim C1, amended round trip: for a Question with a well-formed id and
answer, collapsed nonempty tilde-free fields, no embedded choice-marker
pair (`A.` in the question, `B.` in choice A, `C.` in choice B, `D.` in
choice C), and a regulation that is either empty (with the question not
starting with an opening bracket) or of the captured shape
whitespace-bracket-content-bracket, extracting from the canonical rendering
with no filters yields exactly the single-entry map from the id to the
question itself. -/
theorem c1_round_trip :
    ∀ (q : Question) (c1 c2 c3 c4 c5 : Char),
      q.question_number = [c1, c2, c3, c4, c5] →
      (c1 = 'T' ∨ c1 = 'G' ∨ c1 = 'E') → c2.isDigit = true →
      ('A' ≤ c3 ∧ c3 ≤ 'Z') → c4.isDigit = true → c5.isDigit = true →
      (q.answer = 'A' ∨ q.answer = 'B' ∨ q.answer = 'C' ∨ q.answer = 'D') →
      WFfield q.question → WFfield q.choiceA → WFfield q.choiceB →
      WFfield q.choiceC → WFfield q.choiceD →
      occursIn ['A', '.'] q.question = false →
      occursIn ['B', '.'] q.choiceA = false →
      occursIn ['C', '.'] q.choiceB = false →
      occursIn ['D', '.'] q.choiceC = false →
      ((q.regulation = [] ∧ ∀ (qc : Char) (qr : Str), q.question = qc :: qr → qc ≠ '[')
        ∨ (∃ pre mid, pre.all isSpaceChar = true ∧ mid ≠ [] ∧ ']' ∉ mid
            ∧ q.regulation = pre ++ '[' :: (mid ++ [']']))) →
      parse_questions (renderPlain q) [] [] = Except.ok [(q.question_number, q)] := by
    intro q c1 c2 c3 c4 c5 hqn h1 h2 h3 h4 h5 hans hQ hA hB hC hD hoQ hoA hoB hoC hreg
    obtain ⟨qn, ans, R, Q, A, B, C, D⟩ := q
    simp only at hqn hans hQ hA hB hC hD hoQ hoA hoB hoC hreg ⊢
    subst hqn
    obtain ⟨hQc, hQn, hQt⟩ := hQ
    obtain ⟨hAc, hAn, hAt⟩ := hA
    obtain ⟨hBc, hBn, hBt⟩ := hB
    obtain ⟨hCc, hCn, hCt⟩ := hC
    obtain ⟨hDc, hDn, hDt⟩ := hD
    -- the tail slices of the rendered text
    have hsD : choiceDSeg (' ' :: (D ++ ['\n', '~', '~'])) = some (' ' :: D, []) := by
      have := choiceDSeg_exact ' ' D (by decide) hDt (fun _ => collapse_last hDc)
      rw [List.cons_append] at this
      exact this
    have hsC : stageC (' ' :: (C ++ '\n' :: 'D' :: '.' :: (' ' :: (D ++ ['\n', '~', '~']))))
        = some (' ' :: C, (' ' :: D, [])) := by
      have := @segment_exact _ 'D' '.' choiceDSeg _ (by decide) (by decide) ' ' C
        (' ' :: (D ++ ['\n', '~', '~'])) (by decide) hCt hoC
        (fun _ => collapse_last hCc) hsD
      rw [List.cons_append] at this
      exact this
    have hsB : stageB (' ' :: (B ++ '\n' :: 'C' :: '.' ::
          (' ' :: (C ++ '\n' :: 'D' :: '.' :: (' ' :: (D ++ ['\n', '~', '~']))))))
        = some (' ' :: B, (' ' :: C, (' ' :: D, []))) := by
      have := @segment_exact _ 'C' '.' stageC _ (by decide) (by decide) ' ' B
        (' ' :: (C ++ '\n' :: 'D' :: '.' :: (' ' :: (D ++ ['\n', '~', '~']))))
        (by decide) hBt hoB (fun _ => collapse_last hBc) hsC
      rw [List.cons_append] at this
      exact this
    have hsA : stageA (' ' :: (A ++ '\n' :: 'B' :: '.' ::
          (' ' :: (B ++ '\n' :: 'C' :: '.' ::
            (' ' :: (C ++ '\n' :: 'D' :: '.' :: (' ' :: (D ++ ['\n', '~', '~']))))))))
        = some (' ' :: A, (' ' :: B, (' ' :: C, (' ' :: D, [])))) := by
      have := @segment_exact _ 'B' '.' stageB _ (by decide) (by decide) ' ' A
        (' ' :: (B ++ '\n' :: 'C' :: '.' ::
          (' ' :: (C ++ '\n' :: 'D' :: '.' :: (' ' :: (D ++ ['\n', '~', '~']))))))
        (by decide) hAt hoA (fun _ => collapse_last hAc) hsB
      rw [List.cons_append] at this
      exact this
    have hsQ0 : segment 'A' '.' stageA ('\n' :: (Q ++ '\n' :: 'A' :: '.' ::
          (' ' :: (A ++ '\n' :: 'B' :: '.' ::
            (' ' :: (B ++ '\n' :: 'C' :: '.' ::
              (' ' :: (C ++ '\n' :: 'D' :: '.' :: (' ' :: (D ++ ['\n', '~', '~']))))))))))
        = some ('\n' :: Q, (' ' :: A, (' ' :: B, (' ' :: C, (' ' :: D, []))))) := by
      have := @segment_exact _ 'A' '.' stageA _ (by decide) (by decide) '\n' Q
        (' ' :: (A ++ '\n' :: 'B' :: '.' ::
          (' ' :: (B ++ '\n' :: 'C' :: '.' ::
            (' ' :: (C ++ '\n' :: 'D' :: '.' :: (' ' :: (D ++ ['\n', '~', '~']))))))))
        (by decide) (by simp [hQt]) hoQ (fun _ => collapse_last hQc) hsA
      rw [List.cons_append] at this
      exact this
    have hsQ : stageQ ('\n' :: (Q ++ '\n' :: 'A' :: '.' ::
          (' ' :: (A ++ '\n' :: 'B' :: '.' ::
            (' ' :: (B ++ '\n' :: 'C' :: '.' ::
              (' ' :: (C ++ '\n' :: 'D' :: '.' :: (' ' :: (D ++ ['\n', '~', '~']))))))))))
        = some ('\n' :: Q, (' ' :: A, (' ' :: B, (' ' :: C, (' ' :: D, []))))) :=
      lazyWsThen_of_next hsQ0
    -- the regulation group and the stored regulation value
    obtain ⟨qc, Qr, hQd⟩ : ∃ qc Qr, Q = qc :: Qr := by
      cases Q with
      | nil => exact absurd rfl hQn
      | cons qc Qr => exact ⟨qc, Qr, rfl⟩
    have hrg : ∃ rv : Option Str,
        regGroupThen (R ++ '\n' :: (Q ++ '\n' :: 'A' :: '.' ::
            (' ' :: (A ++ '\n' :: 'B' :: '.' ::
              (' ' :: (B ++ '\n' :: 'C' :: '.' ::
                (' ' :: (C ++ '\n' :: 'D' :: '.' :: (' ' :: (D ++ ['\n', '~', '~']))))))))))
          = some (rv, ('\n' :: Q, (' ' :: A, (' ' :: B, (' ' :: C, (' ' :: D, []))))))
        ∧ ((rv = none ∧ R = []) ∨ (rv = some R ∧ R.all isSpaceChar = false)) := by
      rcases hreg with ⟨hRnil, hhead⟩ | ⟨pre, mid, hpre, hmid, hmem, hRshape⟩
      · refine ⟨none, ?_, Or.inl ⟨rfl, hRnil⟩⟩
        subst hRnil
        rw [List.nil_append]
        have hrt : regTry ('\n' :: (Q ++ '\n' :: 'A' :: '.' ::
            (' ' :: (A ++ '\n' :: 'B' :: '.' ::
              (' ' :: (B ++ '\n' :: 'C' :: '.' ::
                (' ' :: (C ++ '\n' :: 'D' :: '.' :: (' ' :: (D ++ ['\n', '~', '~'])))))))))) = none := by
          rw [regTry, regTryGo, if_neg (by decide), if_pos (by decide)]
          rw [hQd, List.cons_append, regTryGo]
          rw [if_neg (hhead qc Qr hQd), if_neg (by simp [collapse_head hQc hQd])]
        rw [regGroupThen, hrt]
        dsimp only
        rw [hsQ]
        exact rfl
      · refine ⟨some R, ?_, Or.inr ⟨rfl, ?_⟩⟩
        · have hrt : regTry (R ++ '\n' :: (Q ++ '\n' :: 'A' :: '.' ::
              (' ' :: (A ++ '\n' :: 'B' :: '.' ::
                (' ' :: (B ++ '\n' :: 'C' :: '.' ::
                  (' ' :: (C ++ '\n' :: 'D' :: '.' :: (' ' :: (D ++ ['\n', '~', '~'])))))))))) =
              some (R, '\n' :: (Q ++ '\n' :: 'A' :: '.' ::
                (' ' :: (A ++ '\n' :: 'B' :: '.' ::
                  (' ' :: (B ++ '\n' :: 'C' :: '.' ::
                    (' ' :: (C ++ '\n' :: 'D' :: '.' :: (' ' :: (D ++ ['\n', '~', '~'])))))))))) := by
            have heq : R ++ '\n' :: (Q ++ '\n' :: 'A' :: '.' ::
                (' ' :: (A ++ '\n' :: 'B' :: '.' ::
                  (' ' :: (B ++ '\n' :: 'C' :: '.' ::
                    (' ' :: (C ++ '\n' :: 'D' :: '.' :: (' ' :: (D ++ ['\n', '~', '~']))))))))) =
                pre ++ '[' :: (mid ++ ']' :: ('\n' :: (Q ++ '\n' :: 'A' :: '.' ::
                  (' ' :: (A ++ '\n' :: 'B' :: '.' ::
                    (' ' :: (B ++ '\n' :: 'C' :: '.' ::
                      (' ' :: (C ++ '\n' :: 'D' :: '.' :: (' ' :: (D ++ ['\n', '~', '~']))))))))))) := by
              rw [hRshape]
              simp [List.append_assoc]
            rw [regTry, heq]
            rw [regTryGo_ws pre [] mid ('\n' :: (Q ++ '\n' :: 'A' :: '.' ::
              (' ' :: (A ++ '\n' :: 'B' :: '.' ::
                (' ' :: (B ++ '\n' :: 'C' :: '.' ::
                  (' ' :: (C ++ '\n' :: 'D' :: '.' :: (' ' :: (D ++ ['\n', '~', '~'])))))))))) hpre hmid hmem]
            rw [hRshape]
            exact rfl
          rw [regGroupThen, hrt]
          dsimp only
          rw [hsQ]
        · rw [hRshape]
          simp [List.all_append, show isSpaceChar '[' = false from by decide]
    obtain ⟨rv, hrg2, hcase⟩ := hrg
    -- the whole match at the start of the rendered text
    have hidc : ((c1 = 'T' || c1 = 'G' || c1 = 'E') && c2.isDigit
        && ('A' ≤ c3 && c3 ≤ 'Z') && c4.isDigit && c5.isDigit) = true := by
      rcases h1 with h | h | h <;> simp [h, h2, h3.1, h3.2, h4, h5]
    have hansb : (ans = 'A' || ans = 'B' || ans = 'C' || ans = 'D') = true := by
      rcases hans with h | h | h | h <;> simp [h]
    have hcnd : ('(' = '(' && ')' = ')'
        && (ans = 'A' || ans = 'B' || ans = 'C' || ans = 'D')) = true := by
      simp [hansb]
    have hic : idChars (c1 :: c2 :: c3 :: c4 :: c5 :: ' ' :: '(' :: ans :: ')' ::
        (R ++ '\n' :: (Q ++ '\n' :: 'A' :: '.' ::
          (' ' :: (A ++ '\n' :: 'B' :: '.' ::
            (' ' :: (B ++ '\n' :: 'C' :: '.' ::
              (' ' :: (C ++ '\n' :: 'D' :: '.' :: (' ' :: (D ++ ['\n', '~', '~'])))))))))))
        = some ([c1, c2, c3, c4, c5], ' ' :: '(' :: ans :: ')' ::
            (R ++ '\n' :: (Q ++ '\n' :: 'A' :: '.' ::
              (' ' :: (A ++ '\n' :: 'B' :: '.' ::
                (' ' :: (B ++ '\n' :: 'C' :: '.' ::
                  (' ' :: (C ++ '\n' :: 'D' :: '.' :: (' ' :: (D ++ ['\n', '~', '~']))))))))))) := by
      rw [idChars, if_pos hidc]
    have hmatch : qaMatchAt (renderPlain ⟨[c1, c2, c3, c4, c5], ans, R, Q, A, B, C, D⟩)
        = some ⟨[c1, c2, c3, c4, c5], ans, rv, '\n' :: Q, ' ' :: A, ' ' :: B,
            ' ' :: C, ' ' :: D, []⟩ := by
      show qaMatchAt (c1 :: c2 :: c3 :: c4 :: c5 :: ' ' :: '(' :: ans :: ')' ::
          (R ++ '\n' :: (Q ++ '\n' :: 'A' :: '.' ::
            (' ' :: (A ++ '\n' :: 'B' :: '.' ::
              (' ' :: (B ++ '\n' :: 'C' :: '.' ::
                (' ' :: (C ++ '\n' :: 'D' :: '.' :: (' ' :: (D ++ ['\n', '~', '~']))))))))))) = _
      rw [qaMatchAt, hic]
      dsimp only
      rw [if_pos (show (' ' : Char) = ' ' from rfl)]
      dsimp only
      rw [if_pos hcnd, hrg2]
      rfl
    have hfind : findMatches (renderPlain ⟨[c1, c2, c3, c4, c5], ans, R, Q, A, B, C, D⟩)
        = [⟨[c1, c2, c3, c4, c5], ans, rv, '\n' :: Q, ' ' :: A, ' ' :: B,
            ' ' :: C, ' ' :: D, []⟩] := by
      rw [findMatches, findMatchesF_succ, hmatch]
      dsimp only
      rw [findMatchesF_nil]
    -- construction of the question from the match
    have hQe : Q.isEmpty = false := by
      cases Q with
      | nil => exact absurd rfl hQn
      | cons a l => rfl
    have hAe : A.isEmpty = false := by
      cases A with
      | nil => exact absurd rfl hAn
      | cons a l => rfl
    have hBe : B.isEmpty = false := by
      cases B with
      | nil => exact absurd rfl hBn
      | cons a l => rfl
    have hCe : C.isEmpty = false := by
      cases C with
      | nil => exact absurd rfl hCn
      | cons a l => rfl
    have hDe : D.isEmpty = false := by
      cases D with
      | nil => exact absurd rfl hDn
      | cons a l => rfl
    have hcQ : collapse ('\n' :: Q) = Q := by
      rw [@collapse_cons_ws '\n' (by decide) Q, hQc]
    have hcA : collapse (' ' :: A) = A := by
      rw [@collapse_cons_ws ' ' (by decide) A, hAc]
    have hcB : collapse (' ' :: B) = B := by
      rw [@collapse_cons_ws ' ' (by decide) B, hBc]
    have hcC : collapse (' ' :: C) = C := by
      rw [@collapse_cons_ws ' ' (by decide) C, hCc]
    have hcD : collapse (' ' :: D) = D := by
      rw [@collapse_cons_ws ' ' (by decide) D, hDc]
    have hmk : mkQuestion ⟨[c1, c2, c3, c4, c5], ans, rv, '\n' :: Q, ' ' :: A, ' ' :: B,
          ' ' :: C, ' ' :: D, []⟩
        = some ⟨[c1, c2, c3, c4, c5], ans, R, Q, A, B, C, D⟩ := by
      rcases hcase with ⟨rfl, hRnil⟩ | ⟨rfl, hallf⟩
      · subst hRnil
        simp [mkQuestion, hcQ, hcA, hcB, hcC, hcD, hQe, hAe, hBe, hCe, hDe]
      · simp [mkQuestion, hcQ, hcA, hcB, hcC, hcD, hQe, hAe, hBe, hCe, hDe, hallf]
    -- assemble the extraction
    rw [parse_questions, hfind]
    simp [parseGo, hmk, parseStep, qmapLookup, qmapInsert, text_matches_any_re]

/-- A question whose question text embeds the choice-A marker `A. `: the
lazy question group of `QA_RE` stops at that embedded marker, so the round
trip mis-parses the fields. -/
def c1BadQ : Question :=
  ⟨"T1A01".toList, 'A', [], "x A. y".toList,
    "ca".toList, "cb".toList, "cc".toList, "cd".toList⟩

/-- A clean question on which the amended round trip is instantiated. -/
def c1WitnessQ : Question :=
  ⟨"T1A01".toList, 'A', [], "qq".toList,
    "aa".toList, "bb".toList, "cc".toList, "dd".toList⟩

/-- Claim C1, counterexample: extraction on the canonical rendering of
`c1BadQ` does not give the single-entry map whose sole value renders like
`c1BadQ` (the defined equality of Question compares renderings): the
embedded `A. ` inside the question text truncates the captured question. -/
theorem c1_counterexample :
    (parse_questions (renderPlain c1BadQ) [] []).toOption.map
        (List.map (fun p => (p.1, renderPlain p.2)))
      ≠ some [(c1BadQ.question_number, renderPlain c1BadQ)] := by
  decide

theorem c1_round_trip_witness :
    parse_questions (renderPlain c1WitnessQ) [] []
      = Except.ok [(c1WitnessQ.question_number, c1WitnessQ)] :=
  c1_round_trip c1WitnessQ 'T' '1' 'A' '0' '1' rfl (Or.inl rfl) (by decide)
    ⟨by decide, by decide⟩ (by decide) (by decide) (Or.inl rfl)
    ⟨by decide, by decide, by decide⟩ ⟨by decide, by decide, by decide⟩
    ⟨by decide, by decide, by decide⟩ ⟨by decide, by decide, by decide⟩
    ⟨by decide, by decide, by decide⟩
    (by decide) (by decide) (by decide) (by decide)
    (Or.inl ⟨rfl, fun qc qr h => by
      have h2 : ('q' :: ['q'] : Str) = qc :: qr := h
      injection h2 with ha _
      rw [← ha]
      decide⟩)

/-- Claim C8, counterexample: on the example text exactly as the claim
gives it, normalization followed by extraction yields the empty map, not a
single question, and a non-interactive run writes nothing: the free-text
groups of `QA_RE` cannot cross the tilde characters the example uses as
internal separators, so the pattern never matches. -/
theorem c8_counterexample :
    parse_questions (cleanup_text c8ExampleText) [] [] = Except.ok []
      ∧ mainModel false false false [] [] (cleanup_text c8ExampleText) 0 0 []
          (fun _ => []) []
        = ⟨0, [], []⟩ := by
  constructor <;> rfl

/-- Claim C8, amended: with the example laid out as the parsed pools are
(citation directly after the answer, newline-separated choices, tilde run
only as terminator), normalizing and extracting with no filters yields
exactly one question with id T1A01, answer A, regulation " [Part 97]"
(the space before the bracket is retained), question text and four
choices, and a non-interactive run emits exactly that record's rendering,
with the newline print appends, and nothing else. -/
theorem c8_amended :
    parse_questions (cleanup_text c8FixedText) [] []
        = Except.ok [("T1A01".toList, c8Question)]
      ∧ mainModel false false false [] [] (cleanup_text c8FixedText) 0 0 []
          (fun _ => []) []
        = ⟨0, renderPlain c8Question ++ ['\n'], []⟩ := by
  constructor <;> rfl

end ParseArrlPool
